import Mathlib

/-!
# Josephus ring with a cycling bound (`joseph-ring-algorithm.c`)

A shallow embedding of the C program.  The C heap is an explicit value of type
`Heap`; a pointer is an address (`Ptr`).  Every function of the source becomes
a function that threads the heap and returns `none` where the C program would
have undefined behaviour: a dereference of a pointer to storage that was never
allocated or has been freed, a read of a field that was never written, or an
array access outside the array.

Modelling conventions:
* `malloc` always succeeds and hands out a fresh address (the break `brk`);
  the fields of a fresh node are indeterminate (`none`) until written.
* `free` turns the cell back into unallocated storage.
* An `int` is an integer of at most `INT_MAX = 2^31 - 1`.  The increment `i++`
  of a loop counter that holds `INT_MAX` overflows: the C standard leaves the
  behaviour undefined (`none`), and with two's-complement wrap-around the loop
  test `i <= n` would stay true for ever, so there is no result either way.
  `%` is C's truncating remainder (`Int.tmod`).  Memory is unbounded.
* `printf("%d ", id)` is the emitted identifier, returned by `removeNode` and
  collected, in order, by the driver.
* A `for` loop is a recursion on fuel that returns `none` when the fuel runs
  out; each caller passes enough fuel for the loop to finish.
* The ring size is the macro `N` in the source; `driver` takes it as a
  parameter and `main` is `driver N`.  The address `base` of the first node is a
  parameter too: no identifier printed depends on it.
-/

namespace Josephus

/-- An address of the C heap. -/
abbrev Ptr := Nat

/-- The struct `node`: `int id; struct node* next; struct node* pre;`.
A field is `none` while it is indeterminate (never written since `malloc`). -/
structure Node where
  id : Option Int
  next : Option Ptr
  pre : Option Ptr
deriving DecidableEq, Repr

/-- The heap: `cells p` is the node stored at `p` when `p` is allocated and not
freed; `brk` is the next address `malloc` hands out. -/
structure Heap where
  cells : Ptr → Option Node
  brk : Ptr

/-- The heap at program start, with the allocator starting at `base`. -/
def Heap.init (base : Ptr) : Heap := ⟨fun _ => none, base⟩

/-- Overwrite the cell at `p`. -/
def Heap.store (h : Heap) (p : Ptr) (nd : Node) : Heap :=
  ⟨fun a => if a = p then some nd else h.cells a, h.brk⟩

/-- The call `malloc(sizeof(Node))`: a fresh cell with indeterminate fields. -/
def malloc (h : Heap) : Ptr × Heap :=
  (h.brk, ⟨fun a => if a = h.brk then some ⟨none, none, none⟩ else h.cells a, h.brk + 1⟩)

/-- The call `free(p)`: defined only on allocated storage. -/
def free (h : Heap) (p : Ptr) : Option Heap :=
  match h.cells p with
  | none => none
  | some _ => some ⟨fun a => if a = p then none else h.cells a, h.brk⟩

/-- The assignment `p->id = v`. -/
def setId (h : Heap) (p : Ptr) (v : Int) : Option Heap :=
  match h.cells p with
  | none => none
  | some nd => some (h.store p { nd with id := some v })

/-- The assignment `p->next = q`. -/
def setNext (h : Heap) (p : Ptr) (q : Ptr) : Option Heap :=
  match h.cells p with
  | none => none
  | some nd => some (h.store p { nd with next := some q })

/-- The assignment `p->pre = q`. -/
def setPre (h : Heap) (p : Ptr) (q : Ptr) : Option Heap :=
  match h.cells p with
  | none => none
  | some nd => some (h.store p { nd with pre := some q })

/-- The read `p->id`. -/
def getId (h : Heap) (p : Ptr) : Option Int := (h.cells p).bind Node.id

/-- The read `p->next`. -/
def getNext (h : Heap) (p : Ptr) : Option Ptr := (h.cells p).bind Node.next

/-- The read `p->pre`. -/
def getPre (h : Heap) (p : Ptr) : Option Ptr := (h.cells p).bind Node.pre

/-- The macro `N`. -/
def N : Int := 20

/-- The largest value of an `int` (32 bits). -/
def INT_MAX : Int := 2147483647

/-- The increment `i++` of an `int`: undefined when `i` is `INT_MAX`. -/
def intIncr (i : Int) : Option Int := if i < INT_MAX then some (i + 1) else none

/-- The loop `for (i = 2; i <= n; i++) { q = malloc; q->id = i; p->next = q;
q->pre = p; p = p->next; }` of `RingConstruct`, from loop variable `i` and
cursor `p`; returns the final cursor. -/
def constructLoop (n : Int) : Nat → Int → Ptr → Heap → Option (Ptr × Heap)
  | 0, _, _, _ => none
  | fuel + 1, i, p, h =>
    if i ≤ n then do
      let (q, h) := malloc h
      let h ← setId h q i
      let h ← setNext h p q
      let h ← setPre h q p
      let p ← getNext h p
      let i ← intIncr i
      constructLoop n fuel i p h
    else some (p, h)

/-- The function `RingConstruct`: returns `head`. -/
def RingConstruct (n : Int) (h : Heap) : Option (Ptr × Heap) := do
  let (head, h) := malloc h
  let h ← setId h head 1
  let p := head
  let (p, h) ← constructLoop n (n.toNat + 1) 2 p h
  let h ← setNext h p head
  let h ← setPre h head p
  pure (head, h)

/-- The array `boundList` of `boundMachine`. -/
def boundList : List Int := [3, 5, 7, 13]

/-- The function `boundMachine`: `boundList[(order - 1) % 4]`, undefined when
the index falls outside the array. -/
def boundMachine (order : Int) : Option Int :=
  let idx := Int.tmod (order - 1) 4
  if 0 ≤ idx then boundList[idx.toNat]? else none

/-- The loop `for (int i = 2; i <= bound; i++) q = q->next;` of `count`. -/
def countLoop (h : Heap) (bound : Int) : Nat → Int → Ptr → Option Ptr
  | 0, _, _ => none
  | fuel + 1, i, q =>
    if i ≤ bound then do
      let q ← getNext h q
      let i ← intIncr i
      countLoop h bound fuel i q
    else some q

/-- The function `count`. -/
def count (h : Heap) (first : Ptr) (bound : Int) : Option Ptr :=
  countLoop h bound (bound.toNat + 1) 2 first

/-- The function `removeNode`: returns `first`, the heap after the call and the
identifier printed. -/
def removeNode (h : Heap) (currentNode : Ptr) : Option (Ptr × Heap × Int) := do
  let first ← getNext h currentNode
  let pp ← getPre h currentNode
  let nx ← getNext h currentNode
  let h ← setNext h pp nx
  let pp ← getPre h currentNode
  let h ← setPre h first pp
  let v ← getId h currentNode
  let h ← free h currentNode
  pure (first, h, v)

/-- The loop `for (int i = 1; i <= N; i++) { toRemove = count(first,
boundMachine(i)); first = removeNode(toRemove); }` of `main`, with the
identifiers printed so far in `out`. -/
def driverLoop (n : Int) : Nat → Int → Ptr → Heap → List Int → Option (Ptr × Heap × List Int)
  | 0, _, _, _, _ => none
  | fuel + 1, i, first, h, out =>
    if i ≤ n then do
      let b ← boundMachine i
      let toRemove ← count h first b
      let (first, h, v) ← removeNode h toRemove
      let i ← intIncr i
      driverLoop n fuel i first h (out ++ [v])
    else some (first, h, out)

/-- The body of `main` for ring size `n`: the last value of `first`, the final
heap and the identifiers printed, in order. -/
def driver (n : Int) (base : Ptr) : Option (Ptr × Heap × List Int) := do
  let (first, h) ← RingConstruct n (Heap.init base)
  driverLoop n (n.toNat + 1) 1 first h []

/-- The function `main`: the driver at ring size `N`. -/
def main (base : Ptr) : Option (Ptr × Heap × List Int) := driver N base

/-- The error conditions the specification names for the elimination step.
The source defines no error value; they occur only as the `error` alternative
of the outcome of `eliminationStep`. -/
inductive StepError where
  | RingEmpty
  | InvalidStart
deriving DecidableEq, Repr

/-- The elimination step, the body of the loop of `main`:
`toRemove = count(first, bound); first = removeNode(toRemove);`.  The source has
no error path, so a defined outcome is `Except.ok` of what `removeNode` returns;
`none` is undefined behaviour. -/
def eliminationStep (h : Heap) (first : Ptr) (bound : Int) :
    Option (Except StepError (Ptr × Heap × Int)) := do
  let toRemove ← count h first bound
  let r ← removeNode h toRemove
  pure (Except.ok r)

/-! ## Specification-side notions -/

/-- Following `next` exactly `k` times from `p` (undefined as soon as a
dereference is). -/
def followNext (h : Heap) : Nat → Ptr → Option Ptr
  | 0, p => some p
  | k + 1, p => (getNext h p).bind (followNext h k)

/-- The participant at position `i` of a list of addresses. -/
def nth (L : List Ptr) (i : Nat) : Ptr := (L[i]?).getD 0

/-- The heap holds a well-formed ring whose live participants are exactly the
members of `L`, listed in `next` order: the participants are pairwise distinct,
nothing else is allocated, and the participant at position `i` has an
identifier, has the participant at position `i + 1` (cyclically) as `next` and
the participant at position `i - 1` (cyclically) as `pre`. -/
def IsRing (h : Heap) (L : List Ptr) : Prop :=
  L.Nodup ∧ (∀ p, p ∉ L → h.cells p = none) ∧
  ∀ i, i < L.length → ∃ v, h.cells (nth L i) =
    some ⟨some v, some (nth L ((i + 1) % L.length)), some (nth L ((i + L.length - 1) % L.length))⟩

/-- The identifiers met on a walk of `k` participants along `next`, starting
with `p` itself. -/
def walkIds (h : Heap) : Nat → Ptr → Option (List Int)
  | 0, _ => some []
  | k + 1, p => do
    let v ← getId h p
    let q ← getNext h p
    let vs ← walkIds h k q
    pure (v :: vs)

/-- The link-inverse invariant: for every live participant `P`, `P.next.pre`
and `P.pre.next` are both `P`. -/
def LinkInverse (h : Heap) : Prop :=
  ∀ p, (h.cells p).isSome = true →
    ∃ q r, getNext h p = some q ∧ getPre h p = some r ∧
      getPre h q = some p ∧ getNext h r = some p

/-- The list-based reference elimination: `r` rounds from round index `i` on the
participants `L` listed in counting order from the current start.  Each round
rotates the list by `bound - 1`, eliminates the head and continues from the
rest.  Returns the participants eliminated, in order, and those remaining. -/
def josephus {α : Type} : Nat → Int → List α → List α × List α
  | 0, _, L => ([], L)
  | r + 1, i, L =>
    match boundMachine i with
    | none => ([], L)
    | some b =>
      match L.rotate (b - 1).toNat with
      | [] => ([], [])
      | t :: rest => (t :: (josephus r (i + 1) rest).1, (josephus r (i + 1) rest).2)

/-- The state of the driver for ring size `n` when round `k` starts: the ring
is built and the loop of `main` has run its rounds `1, …, k - 1`. -/
def roundStart (n : Int) (base : Ptr) (k : Int) : Option (Ptr × Heap × List Int) := do
  let (first, h) ← RingConstruct n (Heap.init base)
  driverLoop (k - 1) k.toNat 1 first h []

/-- What round `k` of the driver for ring size `n` does: the identifier of the
participant it starts at, its bound, and the identifier it eliminates. -/
def roundTrace (n : Int) (base : Ptr) (k : Int) : Option (Int × Int × Int) := do
  let (first, h, _) ← roundStart n base k
  let s ← getId h first
  let b ← boundMachine k
  let toRemove ← count h first b
  let (_, _, v) ← removeNode h toRemove
  pure (s, b, v)

/-- The heap inside `RingConstruct` once `k` nodes are allocated at
`base, …, base + k - 1`: node `base + j` has identifier `j + 1`; the `next` of the
last node and the `pre` of the first are still indeterminate. -/
def buildingHeap (base k : Nat) : Heap :=
  ⟨fun a =>
    if base ≤ a ∧ a < base + k then
      some ⟨some (((a - base : Nat) : Int) + 1),
        if a + 1 < base + k then some (a + 1) else none,
        if a = base then none else some (a - 1)⟩
    else none, base + k⟩

/-- The heap `RingConstruct` returns for `m` nodes allocated from `base`. -/
def ringHeap (base m : Nat) : Heap :=
  ⟨fun a =>
    if base ≤ a ∧ a < base + m then
      some ⟨some (((a - base : Nat) : Int) + 1),
        some (if a + 1 < base + m then a + 1 else base),
        some (if a = base then base + m - 1 else a - 1)⟩
    else none, base + m⟩

/-- The heap after `removeNode` on target `T` with successor `S` and
predecessor `P`, whose cells before the call are `ndS` and `ndP`. -/
def unlinked (h : Heap) (T S P : Ptr) (ndS ndP : Node) : Heap :=
  ⟨fun a =>
    if a = T then none
    else if a = S then
      some { (if S = P then { ndP with next := some S } else ndS) with pre := some P }
    else if a = P then some { ndP with next := some S }
    else h.cells a, h.brk⟩

/-- The participants met on a walk of `k` participants along `next`, starting
with `p` itself. -/
def walk (h : Heap) : Nat → Ptr → Option (List Ptr)
  | 0, _ => some []
  | k + 1, p => do
    let q ← getNext h p
    let ps ← walk h k q
    pure (p :: ps)

/-! ## Lists of addresses -/

theorem nth_eq_getElem (L : List Ptr) (i : Nat) (hi : i < L.length) : nth L i = L[i] := by
  simp [nth, hi]

theorem nth_mem (L : List Ptr) (i : Nat) (hi : i < L.length) : nth L i ∈ L := by
  rw [nth_eq_getElem L i hi]; exact List.getElem_mem hi

theorem nth_cons_succ (a : Ptr) (L : List Ptr) (i : Nat) : nth (a :: L) (i + 1) = nth L i := by
  simp [nth]

theorem nth_cons_zero (a : Ptr) (L : List Ptr) : nth (a :: L) 0 = a := by
  simp [nth]

theorem nth_inj (L : List Ptr) (hn : L.Nodup) (i j : Nat) (hi : i < L.length) (hj : j < L.length)
    (hij : nth L i = nth L j) : i = j := by
  rw [nth_eq_getElem L i hi, nth_eq_getElem L j hj] at hij
  exact (hn.getElem_inj_iff).1 hij

theorem exists_nth_of_mem (L : List Ptr) (x : Ptr) (hx : x ∈ L) :
    ∃ i, i < L.length ∧ nth L i = x := by
  obtain ⟨i, hi, rfl⟩ := List.getElem_of_mem hx
  exact ⟨i, hi, nth_eq_getElem L i hi⟩

theorem nth_rotate (L : List Ptr) (k i : Nat) (hi : i < L.length) :
    nth (L.rotate k) i = nth L ((i + k) % L.length) := by
  simp [nth, List.getElem?_rotate hi]

/-! ## Heap reads and writes -/

theorem getNext_of_cell {h : Heap} {p : Ptr} {nd : Node} (hc : h.cells p = some nd) :
    getNext h p = nd.next := by
  simp [getNext, hc]

theorem getPre_of_cell {h : Heap} {p : Ptr} {nd : Node} (hc : h.cells p = some nd) :
    getPre h p = nd.pre := by
  simp [getPre, hc]

theorem getId_of_cell {h : Heap} {p : Ptr} {nd : Node} (hc : h.cells p = some nd) :
    getId h p = nd.id := by
  simp [getId, hc]

theorem setId_of_cell {h : Heap} {p : Ptr} {nd : Node} (hc : h.cells p = some nd) (v : Int) :
    setId h p v = some (h.store p { nd with id := some v }) := by
  simp [setId, hc]

theorem setNext_of_cell {h : Heap} {p : Ptr} {nd : Node} (hc : h.cells p = some nd) (q : Ptr) :
    setNext h p q = some (h.store p { nd with next := some q }) := by
  simp [setNext, hc]

theorem setPre_of_cell {h : Heap} {p : Ptr} {nd : Node} (hc : h.cells p = some nd) (q : Ptr) :
    setPre h p q = some (h.store p { nd with pre := some q }) := by
  simp [setPre, hc]

theorem free_of_cell {h : Heap} {p : Ptr} {nd : Node} (hc : h.cells p = some nd) :
    free h p = some ⟨fun a => if a = p then none else h.cells a, h.brk⟩ := by
  simp [free, hc]

theorem store_cells (h : Heap) (p : Ptr) (nd : Node) (a : Ptr) :
    (h.store p nd).cells a = if a = p then some nd else h.cells a := rfl

/-- The function `removeNode` on a target whose three fields are written and
whose neighbours are allocated: it returns the successor, prints the target's
identifier and leaves the heap `unlinked`. -/
theorem removeNode_eq {h : Heap} {T S P : Ptr} {nd ndS ndP : Node} {v : Int}
    (hT : h.cells T = some nd) (hv : nd.id = some v) (hn : nd.next = some S)
    (hp : nd.pre = some P) (hS : h.cells S = some ndS) (hP : h.cells P = some ndP) :
    removeNode h T = some (S, unlinked h T S P ndS ndP, v) := by
  have e1 : getNext h T = some S := by rw [getNext_of_cell hT, hn]
  have e2 : getPre h T = some P := by rw [getPre_of_cell hT, hp]
  have hTP : T = P → ndP = nd := by
    intro e; subst e; rw [hT] at hP; exact (Option.some.inj hP).symm
  have hTS : T = S → ndS = nd := by
    intro e; subst e; rw [hT] at hS; exact (Option.some.inj hS).symm
  have e3 : getPre (h.store P { ndP with next := some S }) T = some P := by
    by_cases e : T = P
    · have := hTP e
      subst e; subst this
      simp [getPre, store_cells, hp]
    · simp [getPre, store_cells, e, hT, hp]
  have e4 : (h.store P { ndP with next := some S }).cells S =
      some (if S = P then { ndP with next := some S } else ndS) := by
    by_cases e : S = P
    · simp [store_cells, e]
    · simp [store_cells, e, hS]
  have e5 : getId (((h.store P { ndP with next := some S })).store S
      { (if S = P then { ndP with next := some S } else ndS) with pre := some P }) T = some v := by
    by_cases e : T = S
    · have a1 := hTS e
      subst e
      by_cases e' : T = P
      · have a2 := hTP e'
        subst e'; subst a2
        simp [getId, store_cells, hv]
      · subst a1
        simp [getId, store_cells, e', hv]
    · by_cases e' : T = P
      · have a2 := hTP e'
        subst e'; subst a2
        simp [getId, store_cells, e, hv]
      · simp [getId, store_cells, e, e', hT, hv]
  obtain ⟨ndT, e6⟩ : ∃ ndT, (((h.store P { ndP with next := some S })).store S
      { (if S = P then { ndP with next := some S } else ndS) with pre := some P }).cells T
        = some ndT := by
    simp only [store_cells, hT]
    split_ifs <;> exact ⟨_, rfl⟩
  simp only [removeNode, e1, e2, Option.bind_eq_bind, Option.some_bind, setNext_of_cell hP,
    e3, setPre_of_cell e4, e5, free_of_cell e6, Option.pure_def, Option.some.injEq, Prod.mk.injEq,
    true_and, and_true]
  rfl

/-! ## Loop counters -/

theorem INT_MAX_eq : INT_MAX = 2147483647 := rfl

theorem intIncr_of_lt {i : Int} (h : i < INT_MAX) : intIncr i = some (i + 1) := by
  simp only [intIncr, if_pos h]

theorem intIncr_max : intIncr INT_MAX = none := by
  simp only [intIncr, if_neg (lt_irrefl INT_MAX)]

/-! ## Counting -/

theorem countLoop_eq_followNext (h : Heap) (bound : Int) (hB : bound < INT_MAX) :
    ∀ (fuel : Nat) (i : Int) (q : Ptr), (bound + 1 - i).toNat < fuel →
      countLoop h bound fuel i q = followNext h (bound + 1 - i).toNat q := by
  intro fuel
  induction fuel with
  | zero => intro i q hf; omega
  | succ f ih =>
    intro i q hf
    by_cases hi : i ≤ bound
    · have e : (bound + 1 - i).toNat = (bound + 1 - (i + 1)).toNat + 1 := by omega
      rw [e]
      simp only [countLoop, hi, if_true, followNext, Option.bind_eq_bind,
        intIncr_of_lt (lt_of_le_of_lt hi hB), Option.some_bind]
      cases hq : getNext h q with
      | none => rfl
      | some q' =>
        simp only [Option.some_bind]
        exact ih (i + 1) q' (by omega)
    · have e : (bound + 1 - i).toNat = 0 := by omega
      rw [e]
      simp [countLoop, hi, followNext]

theorem count_eq_followNext (h : Heap) (first : Ptr) (bound : Int) (hB : bound < INT_MAX) :
    count h first bound = followNext h (bound - 1).toNat first := by
  have e : (bound - 1).toNat = (bound + 1 - 2).toNat := by congr 1; omega
  rw [e]
  exact countLoop_eq_followNext h bound hB _ 2 first (by omega)

/-! ## Well-formed rings -/

theorem mod_succ_eq (i m : Nat) (hi : i < m) :
    (i + 1) % m = if i + 1 = m then 0 else i + 1 := by
  split_ifs with e
  · rw [e, Nat.mod_self]
  · exact Nat.mod_eq_of_lt (by omega)

theorem mod_pred_eq (i m : Nat) (hi : i < m) :
    (i + m - 1) % m = if i = 0 then m - 1 else i - 1 := by
  split_ifs with e
  · subst e; rw [Nat.zero_add]; exact Nat.mod_eq_of_lt (by omega)
  · have : i + m - 1 = (i - 1) + m := by omega
    rw [this, Nat.add_mod_right]; exact Nat.mod_eq_of_lt (by omega)

theorem isRing_cell {h : Heap} {L : List Ptr} (hr : IsRing h L) (i : Nat) (hi : i < L.length) :
    ∃ v, h.cells (nth L i) = some ⟨some v, some (nth L (if i + 1 = L.length then 0 else i + 1)),
      some (nth L (if i = 0 then L.length - 1 else i - 1))⟩ := by
  obtain ⟨v, hv⟩ := hr.2.2 i hi
  rw [mod_succ_eq i _ hi, mod_pred_eq i _ hi] at hv
  exact ⟨v, hv⟩

theorem isRing_of_cells {h : Heap} {L : List Ptr} (hn : L.Nodup)
    (ho : ∀ p, p ∉ L → h.cells p = none)
    (hc : ∀ i, i < L.length → ∃ v, h.cells (nth L i) =
      some ⟨some v, some (nth L (if i + 1 = L.length then 0 else i + 1)),
        some (nth L (if i = 0 then L.length - 1 else i - 1))⟩) : IsRing h L := by
  refine ⟨hn, ho, fun i hi => ?_⟩
  obtain ⟨v, hv⟩ := hc i hi
  rw [mod_succ_eq i _ hi, mod_pred_eq i _ hi]
  exact ⟨v, hv⟩

theorem isRing_live {h : Heap} {L : List Ptr} (hr : IsRing h L) (p : Ptr) :
    (h.cells p).isSome = true ↔ p ∈ L := by
  constructor
  · intro hp
    by_contra hn
    rw [hr.2.1 p hn] at hp
    exact absurd hp (by decide)
  · intro hp
    obtain ⟨i, hi, rfl⟩ := exists_nth_of_mem L p hp
    obtain ⟨v, hv⟩ := hr.2.2 i hi
    rw [hv]; rfl

theorem isRing_rotate {h : Heap} {L : List Ptr} (hr : IsRing h L) (k : Nat) :
    IsRing h (L.rotate k) := by
  refine ⟨List.nodup_rotate.2 hr.1, fun p hp => hr.2.1 p (fun hm => hp (List.mem_rotate.2 hm)),
    fun i hi => ?_⟩
  rw [List.length_rotate] at hi ⊢
  have hpos : 0 < L.length := by omega
  have hj : (i + k) % L.length < L.length := Nat.mod_lt _ hpos
  obtain ⟨v, hv⟩ := hr.2.2 _ hj
  refine ⟨v, ?_⟩
  rw [nth_rotate L k i hi, nth_rotate L k _ (Nat.mod_lt _ hpos),
    nth_rotate L k _ (Nat.mod_lt _ hpos), hv]
  have e1 : ((i + k) % L.length + 1) % L.length = ((i + 1) % L.length + k) % L.length := by
    rw [Nat.mod_add_mod, Nat.mod_add_mod]; congr 1; omega
  have e2 : ((i + k) % L.length + L.length - 1) % L.length
      = ((i + L.length - 1) % L.length + k) % L.length := by
    have a1 : (i + k) % L.length + L.length - 1 = (i + k) % L.length + (L.length - 1) := by omega
    rw [a1, Nat.mod_add_mod, Nat.mod_add_mod]; congr 1; omega
  rw [e1, e2]

theorem exists_rotate_head (L : List Ptr) (x : Ptr) (hx : x ∈ L) :
    ∃ k rest, k < L.length ∧ L.rotate k = x :: rest := by
  obtain ⟨k, hk, rfl⟩ := List.getElem_of_mem hx
  refine ⟨k, L.drop (k + 1) ++ L.take k, hk, ?_⟩
  rw [List.rotate_eq_drop_append_take (Nat.le_of_lt hk), List.drop_eq_getElem_cons hk]
  rfl

/-- Removing the head of the listing of a ring with at least two participants
leaves the ring of the remaining participants, in the same order. -/
theorem isRing_remove_head {h : Heap} {a b : Ptr} {rest : List Ptr}
    (hr : IsRing h (a :: b :: rest)) :
    ∃ h' v, removeNode h a = some (b, h', v) ∧ getId h a = some v ∧ IsRing h' (b :: rest) ∧
      (∀ x, x ≠ a → getId h' x = getId h x) := by
  have hlen : (a :: b :: rest).length = rest.length + 2 := rfl
  have hnd := hr.1
  -- the cell of a participant of the remaining list, before the call
  have hcell : ∀ i, i < rest.length + 1 → ∃ v, h.cells (nth (b :: rest) i) =
      some ⟨some v, some (if i = rest.length then a else nth (b :: rest) (i + 1)),
        some (if i = 0 then a else nth (b :: rest) (i - 1))⟩ := by
    intro i hi
    obtain ⟨v, hv⟩ := isRing_cell hr (i + 1) (by rw [hlen]; omega)
    refine ⟨v, ?_⟩
    rw [nth_cons_succ] at hv
    rw [hv, hlen]
    have e1 : nth (a :: b :: rest) (if i + 1 + 1 = rest.length + 2 then 0 else i + 1 + 1)
        = if i = rest.length then a else nth (b :: rest) (i + 1) := by
      by_cases e : i = rest.length
      · rw [if_pos (by omega), if_pos e, nth_cons_zero]
      · rw [if_neg (by omega), if_neg e, nth_cons_succ]
    have e2 : nth (a :: b :: rest) (if i + 1 = 0 then rest.length + 2 - 1 else i + 1 - 1)
        = if i = 0 then a else nth (b :: rest) (i - 1) := by
      rw [if_neg (by omega)]
      by_cases e : i = 0
      · rw [if_pos e, e]; rfl
      · rw [if_neg e]
        obtain ⟨j, rfl⟩ : ∃ j, i = j + 1 := ⟨i - 1, by omega⟩
        simp only [Nat.add_sub_cancel, nth_cons_succ]
    rw [e1, e2]
  obtain ⟨va, ha⟩ := isRing_cell hr 0 (by rw [hlen]; omega)
  have ha' : h.cells a = some ⟨some va, some b, some (nth (b :: rest) rest.length)⟩ := by
    rw [nth_cons_zero, hlen] at ha
    rw [ha, if_neg (by omega), if_pos rfl,
      show rest.length + 2 - 1 = rest.length + 1 from rfl, nth_cons_succ, nth_cons_succ,
      nth_cons_zero]
  obtain ⟨vb, hb⟩ := hcell 0 (by omega)
  obtain ⟨vz, hz⟩ := hcell rest.length (by omega)
  rw [nth_cons_zero] at hb
  -- distinctness
  have hne : ∀ i, i < rest.length + 1 → nth (b :: rest) i ≠ a := by
    intro i hi e
    have := nth_inj (a :: b :: rest) hnd (i + 1) 0 (by rw [hlen]; omega) (by rw [hlen]; omega)
      (by rw [nth_cons_succ, nth_cons_zero]; exact e)
    omega
  have hnd' : (b :: rest).Nodup := (List.nodup_cons.1 hnd).2
  have hinj : ∀ i j, i < rest.length + 1 → j < rest.length + 1 →
      nth (b :: rest) i = nth (b :: rest) j → i = j :=
    fun i j hi hj e => nth_inj (b :: rest) hnd' i j hi hj e
  have hrem := removeNode_eq (h := h) (T := a) (S := b) (P := nth (b :: rest) rest.length)
    ha' rfl rfl rfl hb hz
  refine ⟨_, va, hrem, by rw [getId_of_cell ha'], ?_, ?_⟩
  · refine isRing_of_cells hnd' ?_ ?_
    · intro p hp
      by_cases e : p = a
      · simp [unlinked, e]
      · have h1 : p ≠ b := fun e1 => hp (e1 ▸ List.mem_cons_self _ _)
        have h2 : p ≠ nth (b :: rest) rest.length :=
          fun e1 => hp (e1 ▸ nth_mem (b :: rest) rest.length (by simp))
        have h3 : p ∉ a :: b :: rest := by
          intro hm
          rcases List.mem_cons.1 hm with hm | hm
          · exact e hm
          · exact hp hm
        simp [unlinked, e, h1, h2, hr.2.1 p h3]
    · intro i hi
      have hi' : i < rest.length + 1 := hi
      have hl' : (b :: rest).length = rest.length + 1 := rfl
      obtain ⟨v, hv⟩ := hcell i hi'
      have n1 := hne i hi'
      rw [hl']
      by_cases e0 : i = 0
      · subst e0
        rw [nth_cons_zero] at hv n1 ⊢
        by_cases em : rest.length = 0
        · -- the remaining ring is the single participant `b`
          have hzb : nth (b :: rest) rest.length = b := by rw [em, nth_cons_zero]
          refine ⟨vz, ?_⟩
          simp [unlinked, n1, hzb, em, nth_cons_zero]
        · have hzb : b ≠ nth (b :: rest) rest.length := by
            intro e
            have := hinj 0 rest.length (by omega) (by omega) (by rw [nth_cons_zero]; exact e)
            omega
          refine ⟨vb, ?_⟩
          have : ¬ (0 + 1 = rest.length + 1) := by omega
          simp [unlinked, n1, hzb, this, Ne.symm em]
      · have hb0 : nth (b :: rest) i ≠ b := by
          intro e
          have := hinj i 0 hi' (by omega) (by rw [nth_cons_zero]; exact e)
          omega
        by_cases em : i = rest.length
        · subst em
          refine ⟨vz, ?_⟩
          simp [unlinked, n1, hb0, e0, Ne.symm hb0, nth_cons_zero]
        · have hz0 : nth (b :: rest) i ≠ nth (b :: rest) rest.length := by
            intro e
            have := hinj i rest.length hi' (by omega) e
            omega
          refine ⟨v, ?_⟩
          have : ¬ (i + 1 = rest.length + 1) := by omega
          simp [unlinked, n1, hb0, hz0, hv, e0, em, this]
  · intro x hx
    simp only [getId, unlinked, if_neg hx]
    by_cases e1 : x = b
    · by_cases e2 : b = nth (b :: rest) rest.length
      · simp [e1, if_pos e2, hb]
        rw [← e2] at hz; rw [hb] at hz
        simp at hz; simp [hz.1]
      · simp [e1, if_neg e2, hb]
    · by_cases e2 : x = nth (b :: rest) rest.length
      · subst e2
        simp [e1, hz]
      · simp [e1, e2]

/-- Removing the only participant of a ring leaves nothing allocated; the
handle returned is the removed participant itself. -/
theorem isRing_remove_single {h : Heap} {a : Ptr} (hr : IsRing h [a]) :
    ∃ h' v, removeNode h a = some (a, h', v) ∧ getId h a = some v ∧ IsRing h' [] := by
  obtain ⟨v, ha⟩ := isRing_cell hr 0 (by simp)
  have ha' : h.cells a = some ⟨some v, some a, some a⟩ := by
    rw [nth_cons_zero] at ha
    rw [ha]; rfl
  refine ⟨_, v, removeNode_eq ha' rfl rfl rfl ha' ha', by rw [getId_of_cell ha'], ?_⟩
  refine ⟨List.nodup_nil, fun p _ => ?_, fun i hi => absurd hi (by simp)⟩
  by_cases e : p = a
  · simp [unlinked, e]
  · have : h.cells p = none := hr.2.1 p (by simpa using e)
    simp [unlinked, e, this]

theorem isRing_getNext {h : Heap} {L : List Ptr} (hr : IsRing h L) (i : Nat)
    (hi : i < L.length) : getNext h (nth L i) = some (nth L ((i + 1) % L.length)) := by
  obtain ⟨v, hv⟩ := hr.2.2 i hi
  rw [getNext_of_cell hv]

theorem isRing_getPre {h : Heap} {L : List Ptr} (hr : IsRing h L) (i : Nat)
    (hi : i < L.length) : getPre h (nth L i) = some (nth L ((i + L.length - 1) % L.length)) := by
  obtain ⟨v, hv⟩ := hr.2.2 i hi
  rw [getPre_of_cell hv]

theorem isRing_getId {h : Heap} {L : List Ptr} (hr : IsRing h L) (i : Nat)
    (hi : i < L.length) : ∃ v, getId h (nth L i) = some v := by
  obtain ⟨v, hv⟩ := hr.2.2 i hi
  exact ⟨v, by rw [getId_of_cell hv]⟩

/-- On a ring, `k` steps of `next` from position `i` reach position
`(i + k) mod m`. -/
theorem followNext_nth {h : Heap} {L : List Ptr} (hr : IsRing h L) :
    ∀ (k i : Nat), i < L.length →
      followNext h k (nth L i) = some (nth L ((i + k) % L.length)) := by
  intro k
  induction k with
  | zero => intro i hi; rw [Nat.add_zero, Nat.mod_eq_of_lt hi]; rfl
  | succ k ih =>
    intro i hi
    have hpos : 0 < L.length := by omega
    rw [followNext, isRing_getNext hr i hi, Option.some_bind,
      ih _ (Nat.mod_lt _ hpos), Nat.mod_add_mod]
    congr 3; omega

theorem nth_rotate_zero (L : List Ptr) (k : Nat) (hl : 0 < L.length) :
    nth (L.rotate k) 0 = nth L (k % L.length) := by
  rw [nth_rotate L k 0 hl, Nat.zero_add]

/-- On a ring listed from `first`, `count` lands on the head of the listing
rotated by `bound - 1`. -/
theorem count_ring {h : Heap} {L : List Ptr} (hr : IsRing h L) (hl : 0 < L.length)
    (bound : Int) (hB : bound < INT_MAX) :
    count h (nth L 0) bound = some (nth (L.rotate (bound - 1).toNat) 0) := by
  rw [count_eq_followNext h _ bound hB, followNext_nth hr _ 0 hl, Nat.zero_add,
    nth_rotate_zero L _ hl]

/-! ## Ring construction -/

theorem constructLoop_step (base k : Nat) (hk : 1 ≤ k) :
    ∃ h1 h2, setId (malloc (buildingHeap base k)).2 (base + k) ((k : Int) + 1) = some h1 ∧
      setNext h1 (base + k - 1) (base + k) = some h2 ∧
      setPre h2 (base + k) (base + k - 1) = some (buildingHeap base (k + 1)) ∧
      getNext (buildingHeap base (k + 1)) (base + k - 1) = some (base + k) := by
  have c1 : (malloc (buildingHeap base k)).2.cells (base + k) = some ⟨none, none, none⟩ := by
    simp [malloc, buildingHeap]
  have e1 := setId_of_cell c1 ((k : Int) + 1)
  have c2 : ((malloc (buildingHeap base k)).2.store (base + k)
      { (⟨none, none, none⟩ : Node) with id := some ((k : Int) + 1) }).cells (base + k - 1)
      = some ⟨some (((base + k - 1 - base : Nat) : Int) + 1), none,
          if base + k - 1 = base then none else some (base + k - 1 - 1)⟩ := by
    have a1 : ¬ (base + k - 1 = base + k) := by omega
    have a2 : base ≤ base + k - 1 ∧ base + k - 1 < base + k := by omega
    have a3 : ¬ (base + k - 1 + 1 < base + k) := by omega
    simp only [store_cells, malloc, buildingHeap, if_neg a1, if_pos a2, if_neg a3]
  have e2 := setNext_of_cell c2 (base + k)
  have c3 : ((((malloc (buildingHeap base k)).2.store (base + k)
      { (⟨none, none, none⟩ : Node) with id := some ((k : Int) + 1) })).store (base + k - 1)
      { (⟨some (((base + k - 1 - base : Nat) : Int) + 1), none,
          if base + k - 1 = base then none else some (base + k - 1 - 1)⟩ : Node) with
          next := some (base + k) }).cells (base + k) = some ⟨some ((k : Int) + 1), none, none⟩ := by
    have a1 : ¬ (base + k = base + k - 1) := by omega
    simp only [store_cells, if_neg a1, if_true]
  have e3 := setPre_of_cell c3 (base + k - 1)
  have hheap : ((((malloc (buildingHeap base k)).2.store (base + k)
      { (⟨none, none, none⟩ : Node) with id := some ((k : Int) + 1) })).store (base + k - 1)
      { (⟨some (((base + k - 1 - base : Nat) : Int) + 1), none,
          if base + k - 1 = base then none else some (base + k - 1 - 1)⟩ : Node) with
          next := some (base + k) }).store (base + k)
      { (⟨some ((k : Int) + 1), none, none⟩ : Node) with pre := some (base + k - 1) }
      = buildingHeap base (k + 1) := by
    simp only [Heap.store, malloc, buildingHeap, Heap.mk.injEq]
    refine ⟨funext fun (a : Nat) => ?_, Nat.add_assoc _ _ _⟩
    by_cases h1 : a = base + k
    · subst h1
      have a2 : base ≤ base + k ∧ base + k < base + (k + 1) := by omega
      have a3 : ¬ (base + k + 1 < base + (k + 1)) := by omega
      have a4 : ¬ (base + k = base) := by omega
      simp only [if_true, if_pos a2, if_neg a3, if_neg a4, Nat.add_sub_cancel_left]
    · by_cases h2 : a = base + k - 1
      · subst h2
        have a2 : base ≤ base + k - 1 ∧ base + k - 1 < base + (k + 1) := by omega
        have a3 : base + k < base + (k + 1) := by omega
        have a5 : base + k - 1 + 1 = base + k := by omega
        simp only [if_neg h1, if_true, if_pos a2, if_pos a3, a5]
      · have a6 : (a + 1 < base + (k + 1)) ↔ (a + 1 < base + k) := by omega
        have a7 : (base ≤ a ∧ a < base + (k + 1)) ↔ (base ≤ a ∧ a < base + k) := by omega
        simp only [if_neg h1, if_neg h2, a6, a7]
  rw [hheap] at e3
  refine ⟨_, _, e1, e2, e3, ?_⟩
  have a2 : base ≤ base + k - 1 ∧ base + k - 1 < base + (k + 1) := by omega
  have a3 : base + k < base + (k + 1) := by omega
  have a5 : base + k - 1 + 1 = base + k := by omega
  simp only [getNext, buildingHeap, if_pos a2, if_pos a3, Option.some_bind, a5]

theorem constructLoop_building (n : Int) (base : Nat) (hN : n < INT_MAX) :
    ∀ (fuel k : Nat), 1 ≤ k → max k n.toNat - k < fuel →
      constructLoop n fuel ((k : Int) + 1) (base + k - 1) (buildingHeap base k) =
        some (base + max k n.toNat - 1, buildingHeap base (max k n.toNat)) := by
  intro fuel
  induction fuel with
  | zero => intro k _ hf; omega
  | succ f ih =>
    intro k hk hf
    by_cases hi : (k : Int) + 1 ≤ n
    · obtain ⟨h1, h2, e1, e2, e3, e4⟩ := constructLoop_step base k hk
      have hmax : max k n.toNat = max (k + 1) n.toNat := by omega
      have hmal : (malloc (buildingHeap base k)).1 = base + k := rfl
      simp only [constructLoop, hi, if_true, hmal, e1, e2, e3, e4, Option.bind_eq_bind,
        Option.some_bind, intIncr_of_lt (lt_of_le_of_lt hi hN)]
      have := ih (k + 1) (by omega) (by omega)
      rw [hmax]
      simpa using this
    · have hmax : max k n.toNat = k := by omega
      simp only [constructLoop, hi, if_false, hmax]

/-- `RingConstruct` on the initial heap always succeeds; it returns the first
address allocated and the heap is `ringHeap` for `max 1 n` nodes. -/
theorem RingConstruct_eq (n : Int) (base : Nat) (hN : n < INT_MAX) :
    RingConstruct n (Heap.init base) = some (base, ringHeap base (max 1 n.toNat)) := by
  have c1 : (malloc (Heap.init base)).2.cells base = some ⟨none, none, none⟩ := by
    simp [malloc, Heap.init]
  have e1 := setId_of_cell c1 1
  have hp : (malloc (Heap.init base)).2.store base { (⟨none, none, none⟩ : Node) with id := some 1 }
      = buildingHeap base 1 := by
    simp only [Heap.store, malloc, Heap.init, buildingHeap, Heap.mk.injEq, and_true]
    refine funext fun (a : Nat) => ?_
    by_cases h1 : a = base
    · subst h1
      have a2 : a ≤ a ∧ a < a + 1 := ⟨Nat.le_refl a, Nat.lt_succ_self a⟩
      have a3 : ¬ (a + 1 < a + 1) := Nat.lt_irrefl _
      simp only [if_true, if_pos a2, if_neg a3, Nat.sub_self, Nat.cast_zero, zero_add]
    · have a2 : ¬ (base ≤ a ∧ a < base + 1) := by omega
      simp only [if_neg h1, if_neg a2]
  rw [hp] at e1
  have e2 := constructLoop_building n base hN (n.toNat + 1) 1 (le_refl 1) (by omega)
  have hmal : (malloc (Heap.init base)).1 = base := rfl
  have e2' : constructLoop n (n.toNat + 1) 2 base (buildingHeap base 1) =
      some (base + max 1 n.toNat - 1, buildingHeap base (max 1 n.toNat)) := by
    simpa using e2
  generalize hm : max 1 n.toNat = m at e2' ⊢
  have hm1 : 1 ≤ m := by omega
  have c3 : (buildingHeap base m).cells (base + m - 1) =
      some ⟨some (((base + m - 1 - base : Nat) : Int) + 1), none,
        if base + m - 1 = base then none else some (base + m - 1 - 1)⟩ := by
    have a2 : base ≤ base + m - 1 ∧ base + m - 1 < base + m := by omega
    have a3 : ¬ (base + m - 1 + 1 < base + m) := by omega
    simp only [buildingHeap, if_pos a2, if_neg a3]
  have e3 := setNext_of_cell c3 base
  have c4 : ((buildingHeap base m).store (base + m - 1)
      { (⟨some (((base + m - 1 - base : Nat) : Int) + 1), none,
        if base + m - 1 = base then none else some (base + m - 1 - 1)⟩ : Node) with
        next := some base }).cells base =
        some ⟨some 1, some (if base + 1 < base + m then base + 1 else base), none⟩ := by
    by_cases h1 : m = 1
    · subst h1
      simp [store_cells]
    · have a1 : ¬ (base = base + m - 1) := by omega
      have a2 : base ≤ base ∧ base < base + m := by omega
      have a3 : base + 1 < base + m := by omega
      simp only [store_cells, if_neg a1, buildingHeap, if_pos a2, if_pos a3, Nat.sub_self,
        Nat.cast_zero, zero_add, if_true]
  have e4 := setPre_of_cell c4 (base + m - 1)
  simp only [RingConstruct, hmal, e1, e2', e3, e4, Option.bind_eq_bind, Option.some_bind,
    Option.pure_def, Option.some.injEq, Prod.mk.injEq, true_and]
  simp only [Heap.store, buildingHeap, ringHeap, Heap.mk.injEq, and_true]
  refine funext fun (a : Nat) => ?_
  by_cases h1 : a = base
  · subst h1
    have a2 : a ≤ a ∧ a < a + m := by omega
    simp only [if_true, if_pos a2, Nat.sub_self, Nat.cast_zero, zero_add]
  · by_cases h2 : a = base + m - 1
    · subst h2
      have a2 : base ≤ base + m - 1 ∧ base + m - 1 < base + m := by omega
      have a3 : ¬ (base + m - 1 + 1 < base + m) := by omega
      simp only [if_neg h1, if_true, if_pos a2, if_neg a3]
    · by_cases h3 : base ≤ a ∧ a < base + m
      · have a3 : a + 1 < base + m := by omega
        simp only [if_neg h1, if_neg h2, if_pos h3, if_pos a3]
      · simp only [if_neg h1, if_neg h2, if_neg h3]

theorem nth_range' (base m i : Nat) (hi : i < m) : nth (List.range' base m) i = base + i := by
  rw [nth_eq_getElem _ _ (by simpa using hi)]
  simp

theorem ringHeap_cells (base m j : Nat) (hj : j < m) :
    (ringHeap base m).cells (base + j) =
      some ⟨some ((j : Int) + 1), some (base + (if j + 1 = m then 0 else j + 1)),
        some (base + (if j = 0 then m - 1 else j - 1))⟩ := by
  have a1 : base ≤ base + j ∧ base + j < base + m := by omega
  have e1 : (if base + j + 1 < base + m then base + j + 1 else base)
      = base + (if j + 1 = m then 0 else j + 1) := by
    split_ifs <;> omega
  have e2 : (if base + j = base then base + m - 1 else base + j - 1)
      = base + (if j = 0 then m - 1 else j - 1) := by
    split_ifs <;> omega
  simp only [ringHeap, if_pos a1, Nat.add_sub_cancel_left, e1, e2]

theorem ringHeap_cells_none (base m : Nat) (p : Nat) (hp : ¬ (base ≤ p ∧ p < base + m)) :
    (ringHeap base m).cells p = none := by
  simp only [ringHeap, if_neg hp]

/-- The heap built by `RingConstruct` is a well-formed ring whose participants,
in `next` order from the head, are the addresses `base, …, base + m - 1`. -/
theorem isRing_ringHeap (base m : Nat) : IsRing (ringHeap base m) (List.range' base m) := by
  refine isRing_of_cells (List.nodup_range' base m) ?_ ?_
  · intro p hp
    exact ringHeap_cells_none base m p (fun hc => hp (List.mem_range'_1.2 hc))
  · intro i hi
    rw [List.length_range'] at hi ⊢
    refine ⟨(i : Int) + 1, ?_⟩
    have b1 : (if i + 1 = m then 0 else i + 1) < m := by split_ifs <;> omega
    have b2 : (if i = 0 then m - 1 else i - 1) < m := by split_ifs <;> omega
    rw [nth_range' base m i hi, nth_range' base m _ b1, nth_range' base m _ b2,
      ringHeap_cells base m i hi]

theorem getId_ringHeap (base m j : Nat) (hj : j < m) :
    getId (ringHeap base m) (base + j) = some ((j : Int) + 1) := by
  rw [getId_of_cell (ringHeap_cells base m j hj)]

/-! ## The bound generator -/

theorem boundMachine_eq (order : Int) (h : 0 < order) :
    boundMachine order = boundList[((order - 1) % 4).toNat]? := by
  have h1 : (0 : Int) ≤ order - 1 := by omega
  have h2 : Int.tmod (order - 1) 4 = (order - 1) % 4 := Int.tmod_eq_emod h1 (by decide)
  have h3 : (0 : Int) ≤ (order - 1) % 4 := Int.emod_nonneg _ (by decide)
  simp only [boundMachine, h2, h3, if_true]

theorem boundMachine_cases (order : Int) (h : 0 < order) :
    boundMachine order = some 3 ∨ boundMachine order = some 5 ∨
      boundMachine order = some 7 ∨ boundMachine order = some 13 := by
  rw [boundMachine_eq order h]
  have h4 : (order - 1) % 4 = 0 ∨ (order - 1) % 4 = 1 ∨ (order - 1) % 4 = 2 ∨
      (order - 1) % 4 = 3 := by omega
  rcases h4 with h4 | h4 | h4 | h4 <;> rw [h4] <;> simp [boundList]

theorem boundMachine_spec_aux (order : Int) (h : 0 < order) :
    ∃ b, boundMachine order = some b ∧ 0 < b ∧ b < INT_MAX := by
  rcases boundMachine_cases order h with hb | hb | hb | hb
  · exact ⟨3, hb, by decide, by decide⟩
  · exact ⟨5, hb, by decide, by decide⟩
  · exact ⟨7, hb, by decide, by decide⟩
  · exact ⟨13, hb, by decide, by decide⟩

/-- C4: for every positive `order`, the table index `(order - 1) % 4` lies in
`0..3`, `boundMachine order` succeeds and returns the element at index
`(order - 1) mod 4` of `[3, 5, 7, 13]`, the result is positive, and the first
five values are 3, 5, 7, 13, 3. -/
theorem boundMachine_spec (order : Int) (h : 0 < order) :
    0 ≤ Int.tmod (order - 1) 4 ∧ Int.tmod (order - 1) 4 < 4 ∧
    (∃ b, boundMachine order = some b ∧
      ([3, 5, 7, 13] : List Int)[((order - 1) % 4).toNat]? = some b ∧ 0 < b) ∧
    boundMachine 1 = some 3 ∧ boundMachine 2 = some 5 ∧ boundMachine 3 = some 7 ∧
    boundMachine 4 = some 13 ∧ boundMachine 5 = some 3 := by
  have h1 : (0 : Int) ≤ order - 1 := by omega
  have h2 : Int.tmod (order - 1) 4 = (order - 1) % 4 := Int.tmod_eq_emod h1 (by decide)
  refine ⟨by omega, by omega, ?_, by decide, by decide, by decide, by decide, by decide⟩
  have he := boundMachine_eq order h
  rcases boundMachine_cases order h with hb | hb | hb | hb
  · exact ⟨3, hb, by rw [← hb, he]; rfl, by decide⟩
  · exact ⟨5, hb, by rw [← hb, he]; rfl, by decide⟩
  · exact ⟨7, hb, by rw [← hb, he]; rfl, by decide⟩
  · exact ⟨13, hb, by rw [← hb, he]; rfl, by decide⟩

/-- C4, at an instance: round 6 has bound 5. -/
theorem boundMachine_spec_witness :
    (0 : Int) < 6 ∧ boundMachine 6 = some 5 :=
  ⟨by decide, by
    obtain ⟨b, hb, hl, -⟩ := (boundMachine_spec 6 (by decide)).2.2.1
    rw [hb]; exact hl.symm.trans (by decide)⟩

/-- C5: `boundMachine` has period 4 on the positive integers, where it is
defined. -/
theorem boundMachine_periodic (k : Int) (h : 0 < k) :
    boundMachine k = boundMachine (k + 4) ∧ (boundMachine k).isSome = true := by
  constructor
  · rw [boundMachine_eq k h, boundMachine_eq (k + 4) (by omega)]
    have : (k + 4 - 1) % 4 = (k - 1) % 4 := by omega
    rw [this]
  · rcases boundMachine_cases k h with hb | hb | hb | hb <;> rw [hb] <;> rfl

/-- C5, at an instance: rounds 3 and 7 share the bound 7. -/
theorem boundMachine_periodic_witness :
    (0 : Int) < 3 ∧ boundMachine 3 = boundMachine (3 + 4) ∧ boundMachine 3 = some 7 :=
  ⟨by decide, (boundMachine_periodic 3 (by decide)).1, by decide⟩

/-! ## The reference elimination on lists -/

theorem josephus_perm {α : Type} : ∀ (r : Nat) (i : Int) (L : List α),
    ((josephus r i L).1 ++ (josephus r i L).2).Perm L := by
  intro r
  induction r with
  | zero => intro i L; exact List.Perm.refl _
  | succ r ih =>
    intro i L
    rw [josephus]
    cases hb : boundMachine i with
    | none => exact List.Perm.refl _
    | some b =>
      simp only
      cases hrot : L.rotate (b - 1).toNat with
      | nil =>
        have : L = [] := List.rotate_eq_nil_iff.1 hrot
        subst this
        exact List.Perm.refl _
      | cons t rest =>
        simp only
        have h1 : (t :: rest).Perm L := hrot ▸ List.rotate_perm L _
        exact ((ih (i + 1) rest).cons t).trans h1

theorem josephus_length {α : Type} : ∀ (r : Nat) (i : Int) (L : List α),
    1 ≤ i → r ≤ L.length → (josephus r i L).1.length = r := by
  intro r
  induction r with
  | zero => intro i L _ _; rfl
  | succ r ih =>
    intro i L hi hr
    rw [josephus]
    obtain ⟨b, hb, -⟩ := (boundMachine_spec_aux i (by omega))
    rw [hb]
    simp only
    cases hrot : L.rotate (b - 1).toNat with
    | nil =>
      have : L = [] := List.rotate_eq_nil_iff.1 hrot
      subst this
      simp at hr
    | cons t rest =>
      simp only
      have h1 : (t :: rest).length = L.length := by rw [← hrot, List.length_rotate]
      rw [List.length_cons] at h1 ⊢
      rw [ih (i + 1) rest (by omega) (by omega)]

theorem josephus_map {α β : Type} (f : α → β) : ∀ (r : Nat) (i : Int) (L : List α),
    josephus r i (L.map f) = ((josephus r i L).1.map f, (josephus r i L).2.map f) := by
  intro r
  induction r with
  | zero => intro i L; rfl
  | succ r ih =>
    intro i L
    rw [josephus, josephus]
    cases hb : boundMachine i with
    | none => rfl
    | some b =>
      simp only
      rw [← List.map_rotate]
      cases hrot : L.rotate (b - 1).toNat with
      | nil => rfl
      | cons t rest =>
        simp only [List.map_cons]
        rw [ih (i + 1) rest]

/-! ## The driver refines the reference elimination -/

/-- Removing the head of the listing of a ring: the call succeeds, prints the
head's identifier, leaves the ring of the rest and returns the head of the rest
when there is one. -/
theorem isRing_remove {h : Heap} {t : Ptr} {rest : List Ptr} (hr : IsRing h (t :: rest)) :
    ∃ first' h' v, removeNode h t = some (first', h', v) ∧ getId h t = some v ∧
      IsRing h' rest ∧ (rest ≠ [] → first' = nth rest 0) ∧
      (∀ x, x ∈ rest → getId h' x = getId h x) := by
  cases rest with
  | nil =>
    obtain ⟨h', v, h1, h2, h3⟩ := isRing_remove_single hr
    exact ⟨t, h', v, h1, h2, h3, fun hne => absurd rfl hne, fun x hx => absurd hx (by simp)⟩
  | cons b r =>
    obtain ⟨h', v, h1, h2, h3, h4⟩ := isRing_remove_head hr
    refine ⟨b, h', v, h1, h2, h3, fun _ => (nth_cons_zero b r).symm, fun x hx => h4 x ?_⟩
    intro e
    subst e
    exact (List.nodup_cons.1 hr.1).1 hx

theorem driverLoop_josephus (n : Int) (idf : Ptr → Int) (hN : n < INT_MAX) :
    ∀ (r : Nat) (L : List Ptr) (fuel : Nat) (i : Int) (first : Ptr) (h : Heap) (out : List Int),
      IsRing h L → r ≤ L.length → 1 ≤ i → (r : Int) = n + 1 - i → r < fuel →
      (L ≠ [] → first = nth L 0) → (∀ x, x ∈ L → getId h x = some (idf x)) →
      ∃ first' h', driverLoop n fuel i first h out =
          some (first', h', out ++ (josephus r i L).1.map idf) ∧
        IsRing h' (josephus r i L).2 ∧
        ((josephus r i L).2 ≠ [] → first' = nth (josephus r i L).2 0) ∧
        (∀ x, x ∈ (josephus r i L).2 → getId h' x = some (idf x)) := by
  intro r
  induction r with
  | zero =>
    intro L fuel i first h out hr _ _ hri hf hfirst hids
    obtain ⟨f, rfl⟩ : ∃ f, fuel = f + 1 := ⟨fuel - 1, by omega⟩
    have hi : ¬ i ≤ n := by
      have : ((0 : Nat) : Int) = 0 := rfl
      omega
    refine ⟨first, h, ?_, hr, hfirst, hids⟩
    simp [driverLoop, hi, josephus]
  | succ r ih =>
    intro L fuel i first h out hr hrl h1i hri hf hfirst hids
    obtain ⟨f, rfl⟩ : ∃ f, fuel = f + 1 := ⟨fuel - 1, by omega⟩
    have hi : i ≤ n := by
      have : ((r + 1 : Nat) : Int) = (r : Int) + 1 := by push_cast; rfl
      omega
    obtain ⟨b, hb, -, hbI⟩ := boundMachine_spec_aux i (by omega)
    have hl : 0 < L.length := by omega
    have hne : L ≠ [] := by
      intro e; rw [e] at hl; exact absurd hl (by simp)
    have hcount : count h first b = some (nth (L.rotate (b - 1).toNat) 0) := by
      rw [hfirst hne]; exact count_ring hr hl b hbI
    have hr' := isRing_rotate hr (b - 1).toNat
    cases hrot : L.rotate (b - 1).toNat with
    | nil => exact absurd (List.rotate_eq_nil_iff.1 hrot) hne
    | cons t rest =>
      rw [hrot] at hr' hcount
      rw [nth_cons_zero] at hcount
      have hjos : josephus (r + 1) i L =
          (t :: (josephus r (i + 1) rest).1, (josephus r (i + 1) rest).2) := by
        rw [josephus]
        simp only [hb, hrot]
      have hlen : (t :: rest).length = L.length := by rw [← hrot, List.length_rotate]
      rw [List.length_cons] at hlen
      have hmem : ∀ x, x ∈ t :: rest → x ∈ L := by
        intro x hx
        rw [← hrot] at hx
        exact List.mem_rotate.1 hx
      obtain ⟨first', h', v, e1, e2, e3, e4, e5⟩ := isRing_remove hr'
      have hv : v = idf t := by
        have := hids t (hmem t (List.mem_cons_self _ _))
        rw [e2] at this
        exact Option.some.inj this
      have hri' : ((r : Nat) : Int) = n + 1 - (i + 1) := by
        have : ((r + 1 : Nat) : Int) = (r : Int) + 1 := by push_cast; rfl
        omega
      obtain ⟨first'', h'', g1, g2, g3, g4⟩ :=
        ih rest f (i + 1) first' h' (out ++ [v]) e3 (by omega) (by omega) hri' (by omega) e4
          (fun x hx => by rw [e5 x hx]; exact hids x (hmem x (List.mem_cons_of_mem _ hx)))
      refine ⟨first'', h'', ?_, ?_, ?_, ?_⟩
      · simp only [driverLoop, hi, if_true, hb, hcount, e1, Option.bind_eq_bind, Option.some_bind,
          intIncr_of_lt (lt_of_le_of_lt hi hN)]
        rw [g1, hjos, hv]
        simp
      · rw [hjos]; exact g2
      · rw [hjos]; exact g3
      · rw [hjos]; exact g4

theorem josephus_full {α : Type} (i : Int) (L : List α) (hi : 1 ≤ i) :
    (josephus L.length i L).2 = [] ∧ (josephus L.length i L).1.Perm L := by
  have h1 := josephus_perm L.length i L
  have h2 := josephus_length L.length i L hi (le_refl _)
  have h3 := h1.length_eq
  rw [List.length_append, h2] at h3
  have h4 : (josephus L.length i L).2 = [] := List.length_eq_zero.1 (by omega)
  rw [h4, List.append_nil] at h1
  exact ⟨h4, h1⟩

/-- The run of the driver for ring size `n ≥ 1`: it succeeds, frees every node
and prints the identifiers in the order of the reference elimination. -/
theorem driver_eq (n : Int) (hn : 1 ≤ n) (hN : n < INT_MAX) (base : Ptr) :
    ∃ first h, driver n base = some (first, h,
        (josephus n.toNat 1 (List.range' base n.toNat)).1.map
          (fun a => (((a - base : Nat) : Int) + 1))) ∧ ∀ p, h.cells p = none := by
  have hm : max 1 n.toNat = n.toNat := by omega
  have hc := RingConstruct_eq n base hN
  rw [hm] at hc
  have hl : (List.range' base n.toNat).length = n.toNat := List.length_range' _ _ _
  have hids : ∀ x, x ∈ List.range' base n.toNat →
      getId (ringHeap base n.toNat) x = some (((x - base : Nat) : Int) + 1) := by
    intro x hx
    obtain ⟨hx1, hx2⟩ := List.mem_range'_1.1 hx
    have := getId_ringHeap base n.toNat (x - base) (by omega)
    rwa [Nat.add_sub_cancel' hx1] at this
  obtain ⟨first', h', g1, g2, -, -⟩ := driverLoop_josephus n
    (fun a => (((a - base : Nat) : Int) + 1)) hN n.toNat (List.range' base n.toNat) (n.toNat + 1) 1
    base (ringHeap base n.toNat) [] (isRing_ringHeap base n.toNat) (by rw [hl]) (le_refl 1)
    (by omega) (by omega)
    (fun _ => by rw [nth_range' base n.toNat 0 (by omega)]; rfl) hids
  have hj := josephus_full 1 (List.range' base n.toNat) (le_refl 1)
  rw [hl] at hj
  rw [hj.1] at g2
  refine ⟨first', h', ?_, fun p => g2.2.1 p (by simp)⟩
  simp only [driver, hc, Option.bind_eq_bind, Option.some_bind]
  rw [g1, List.nil_append]

theorem ids_range' (base m : Nat) :
    (List.range' base m).map (fun a => (((a - base : Nat) : Int) + 1))
      = (List.range' 1 m).map (fun (k : Nat) => (k : Int)) := by
  rw [List.range'_eq_map_range base, List.range'_eq_map_range 1]
  simp only [List.map_map]
  refine List.map_congr_left (fun k _ => ?_)
  simp only [Function.comp_apply, Nat.add_sub_cancel_left]
  push_cast; ring

/-- C1, amended: for every ring size `n` with `1 ≤ n < INT_MAX` the driver
succeeds, performs exactly `n` eliminations (one identifier is printed per
elimination), leaves no node allocated, and the identifiers printed are a
permutation of `1, …, n`: each identifier from 1 to `n` is printed exactly
once. -/
theorem driver_permutation (n : Int) (hn : 1 ≤ n) (hN : n < INT_MAX) (base : Ptr) :
    ∃ first h out, driver n base = some (first, h, out) ∧
      (out.length : Int) = n ∧ (∀ p, h.cells p = none) ∧
      out.Perm ((List.range' 1 n.toNat).map (fun (k : Nat) => (k : Int))) ∧
      ∀ v : Int, 1 ≤ v → v ≤ n → out.count v = 1 := by
  obtain ⟨first, h, hd, hempty⟩ := driver_eq n hn hN base
  have hj := josephus_full 1 (List.range' base n.toNat) (le_refl 1)
  rw [List.length_range'] at hj
  have hperm : ((josephus n.toNat 1 (List.range' base n.toNat)).1.map
      (fun a => (((a - base : Nat) : Int) + 1))).Perm
      ((List.range' 1 n.toNat).map (fun (k : Nat) => (k : Int))) := by
    rw [← ids_range' base n.toNat]
    exact hj.2.map _
  refine ⟨first, h, (josephus n.toNat 1 (List.range' base n.toNat)).1.map
      (fun a => (((a - base : Nat) : Int) + 1)), hd, ?_, hempty, hperm, ?_⟩
  · rw [hperm.length_eq, List.length_map, List.length_range']
    omega
  · intro v hv1 hv2
    rw [hperm.count_eq]
    have hnd : ((List.range' 1 n.toNat).map (fun (k : Nat) => (k : Int))).Nodup :=
      (List.nodup_range' 1 n.toNat).map (fun a b hab => by exact_mod_cast hab)
    refine List.count_eq_one_of_mem hnd ?_
    exact List.mem_map.2 ⟨v.toNat, List.mem_range'_1.2 (by omega), Int.toNat_of_nonneg (by omega)⟩

/-- C1, amended, at ring size 3: the driver prints 3, 1, 2. -/
theorem driver_permutation_witness :
    (1 : Int) ≤ 3 ∧ (3 : Int) < INT_MAX ∧ (∃ first h out, driver 3 0 = some (first, h, out) ∧
      (out.length : Int) = 3 ∧ (∀ p, h.cells p = none) ∧
      out.Perm ((List.range' 1 (3 : Int).toNat).map (fun (k : Nat) => (k : Int))) ∧
      ∀ v : Int, 1 ≤ v → v ≤ 3 → out.count v = 1) ∧
      (driver 3 0).map (fun s => s.2.2) = some [3, 1, 2] :=
  ⟨by decide, by decide, driver_permutation 3 (by decide) (by decide) 0, by decide⟩

/-! ## The ring built by `RingConstruct` -/

theorem getNext_ringHeap (base m j : Nat) (hj : j < m) :
    getNext (ringHeap base m) (base + j) = some (base + (if j + 1 = m then 0 else j + 1)) := by
  rw [getNext_of_cell (ringHeap_cells base m j hj)]

theorem getPre_ringHeap (base m j : Nat) (hj : j < m) :
    getPre (ringHeap base m) (base + j) = some (base + (if j = 0 then m - 1 else j - 1)) := by
  rw [getPre_of_cell (ringHeap_cells base m j hj)]

/-- C3, amended: for `1 ≤ n < INT_MAX`, `RingConstruct n` succeeds and creates exactly one
participant for each identifier `1, …, n` (`addr i` is the participant with
identifier `i`); the `next` of participant `i < n` is participant `i + 1`, the
`next` of participant `n` is participant 1, `pre` is the inverse relation, and
the handle returned is participant 1. -/
theorem RingConstruct_links (n : Int) (hn : 1 ≤ n) (hN : n < INT_MAX) (base : Nat) :
    ∃ (head : Ptr) (h : Heap) (addr : Int → Ptr),
      RingConstruct n (Heap.init base) = some (head, h) ∧
      (∀ i, 1 ≤ i → i ≤ n → getId h (addr i) = some i) ∧
      (∀ p, (h.cells p).isSome = true → ∃ i, 1 ≤ i ∧ i ≤ n ∧ p = addr i) ∧
      (∀ i j, 1 ≤ i → i ≤ n → 1 ≤ j → j ≤ n → addr i = addr j → i = j) ∧
      (∀ i, 1 ≤ i → i < n → getNext h (addr i) = some (addr (i + 1))) ∧
      getNext h (addr n) = some (addr 1) ∧
      (∀ i, 1 ≤ i → i < n → getPre h (addr (i + 1)) = some (addr i)) ∧
      getPre h (addr 1) = some (addr n) ∧
      head = addr 1 := by
  have hm : max 1 n.toNat = n.toNat := by omega
  have hc := RingConstruct_eq n base hN
  rw [hm] at hc
  refine ⟨base, ringHeap base n.toNat, fun i => base + (i - 1).toNat, hc, ?_, ?_, ?_, ?_, ?_, ?_,
    ?_, ?_⟩
  · intro i h1 h2
    rw [getId_ringHeap base n.toNat (i - 1).toNat (by omega)]
    congr 1; omega
  · intro (p : Nat) hp
    have hr : base ≤ p ∧ p < base + n.toNat := by
      by_contra hcon
      rw [ringHeap_cells_none base n.toNat p hcon] at hp
      exact absurd hp (by decide)
    refine ⟨((p - base : Nat) : Int) + 1, by omega, by omega, ?_⟩
    show p = base + (((p - base : Nat) : Int) + 1 - 1).toNat
    omega
  · intro i j hi1 hi2 hj1 hj2 hij
    have : base + (i - 1).toNat = base + (j - 1).toNat := hij
    omega
  · intro i h1 h2
    show getNext _ (base + (i - 1).toNat) = some (base + (i + 1 - 1).toNat)
    rw [getNext_ringHeap base n.toNat (i - 1).toNat (by omega), if_neg (by omega)]
    congr 2; omega
  · show getNext _ (base + (n - 1).toNat) = some (base + ((1 : Int) - 1).toNat)
    rw [getNext_ringHeap base n.toNat (n - 1).toNat (by omega), if_pos (by omega)]
    rfl
  · intro i h1 h2
    show getPre _ (base + (i + 1 - 1).toNat) = some (base + (i - 1).toNat)
    rw [getPre_ringHeap base n.toNat (i + 1 - 1).toNat (by omega), if_neg (by omega)]
    congr 2; omega
  · show getPre _ (base + ((1 : Int) - 1).toNat) = some (base + (n - 1).toNat)
    rw [getPre_ringHeap base n.toNat ((1 : Int) - 1).toNat (by omega), if_pos (by decide)]
    congr 2; omega
  · show base = base + ((1 : Int) - 1).toNat
    simp

/-- C3, amended, at ring size 4 allocated from address 10. -/
theorem RingConstruct_links_witness :
    (1 : Int) ≤ 4 ∧ (4 : Int) < INT_MAX ∧ ∃ (head : Ptr) (h : Heap) (addr : Int → Ptr),
      RingConstruct 4 (Heap.init 10) = some (head, h) ∧
      (∀ i, 1 ≤ i → i ≤ 4 → getId h (addr i) = some i) ∧
      (∀ p, (h.cells p).isSome = true → ∃ i, 1 ≤ i ∧ i ≤ 4 ∧ p = addr i) ∧
      (∀ i j, 1 ≤ i → i ≤ 4 → 1 ≤ j → j ≤ 4 → addr i = addr j → i = j) ∧
      (∀ i, 1 ≤ i → i < 4 → getNext h (addr i) = some (addr (i + 1))) ∧
      getNext h (addr 4) = some (addr 1) ∧
      (∀ i, 1 ≤ i → i < 4 → getPre h (addr (i + 1)) = some (addr i)) ∧
      getPre h (addr 1) = some (addr 4) ∧
      head = addr 1 :=
  ⟨by decide, by decide, RingConstruct_links 4 (by decide) (by decide) 10⟩

/-- On a ring listed from `p`, a walk of `k ≤ m` participants from `p` meets
the first `k` participants of the listing. -/
theorem walkIds_head {h : Heap} : ∀ (k : Nat) (L : List Ptr), IsRing h L → k ≤ L.length →
    0 < L.length → ∃ vs, walkIds h k (nth L 0) = some vs ∧
      vs.map some = (L.take k).map (getId h) := by
  intro k
  induction k with
  | zero => intro L _ _ _; exact ⟨[], rfl, by simp⟩
  | succ k ih =>
    intro L hr hk hl
    cases L with
    | nil => exact absurd hl (by simp)
    | cons x t =>
      obtain ⟨v, hv⟩ := isRing_getId hr 0 hl
      have hn := isRing_getNext hr 0 hl
      rw [Nat.zero_add, ← nth_rotate_zero (x :: t) 1 hl] at hn
      have hr' := isRing_rotate hr 1
      have hrot : (x :: t).rotate 1 = t ++ [x] := by
        rw [List.rotate_cons_succ, List.rotate_zero]
      rw [hrot] at hr' hn
      have hlt : k ≤ t.length := by simpa using hk
      obtain ⟨vs, hvs, hmap⟩ := ih (t ++ [x]) hr' (by simp; omega) (by simp)
      rw [nth_cons_zero] at hv hn ⊢
      refine ⟨v :: vs, ?_, ?_⟩
      · simp only [walkIds, hv, hn, hvs, Option.bind_eq_bind, Option.some_bind, Option.pure_def]
      · rw [List.take_append_of_le_length hlt] at hmap
        simp only [List.map_cons, List.take_succ_cons, hmap, hv]

/-- C2, amended: for `1 ≤ n < INT_MAX`, `RingConstruct n` succeeds and the ring has exactly `n`
live participants (the members of `L`, the head among them); from every
participant, `n` steps of `next` return to it and no smaller positive number of
steps does, and the `n` participants visited carry `n` distinct identifiers. -/
theorem RingConstruct_single_cycle (n : Int) (hn : 1 ≤ n) (hN : n < INT_MAX) (base : Nat) :
    ∃ (head : Ptr) (h : Heap) (L : List Ptr),
      RingConstruct n (Heap.init base) = some (head, h) ∧
      L.Nodup ∧ (L.length : Int) = n ∧ (∀ p, (h.cells p).isSome = true ↔ p ∈ L) ∧ head ∈ L ∧
      ∀ p, p ∈ L →
        followNext h n.toNat p = some p ∧
        (∀ j, 0 < j → j < n.toNat → followNext h j p ≠ some p) ∧
        ∃ vs, walkIds h n.toNat p = some vs ∧ vs.length = n.toNat ∧ vs.Nodup := by
  have hm : max 1 n.toNat = n.toNat := by omega
  have hc := RingConstruct_eq n base hN
  rw [hm] at hc
  have hr := isRing_ringHeap base n.toNat
  have hl : (List.range' base n.toNat).length = n.toNat := List.length_range' _ _ _
  refine ⟨base, ringHeap base n.toNat, List.range' base n.toNat, hc, hr.1, by rw [hl]; omega,
    isRing_live hr, List.mem_range'_1.2 (by omega), ?_⟩
  intro p hp
  obtain ⟨k, rest, -, hrot⟩ := exists_rotate_head _ p hp
  have hr' := isRing_rotate hr k
  have hl' : ((List.range' base n.toNat).rotate k).length = n.toNat := by
    rw [List.length_rotate, hl]
  have hp0 : nth ((List.range' base n.toNat).rotate k) 0 = p := by rw [hrot, nth_cons_zero]
  have hpos : 0 < n.toNat := by omega
  refine ⟨?_, ?_, ?_⟩
  · have := followNext_nth hr' n.toNat 0 (by rw [hl']; exact hpos)
    rw [hl', Nat.zero_add, Nat.mod_self, hp0] at this
    exact this
  · intro j hj1 hj2 hcon
    have := followNext_nth hr' j 0 (by rw [hl']; exact hpos)
    rw [hl', Nat.zero_add, Nat.mod_eq_of_lt hj2, hp0, hcon] at this
    have e := nth_inj _ hr'.1 0 j (by rw [hl']; exact hpos) (by rw [hl']; exact hj2)
      (by rw [hp0]; exact Option.some.inj this)
    omega
  · obtain ⟨vs, hvs, hmap⟩ := walkIds_head n.toNat _ hr' (by rw [hl']) (by rw [hl']; exact hpos)
    rw [hp0] at hvs
    rw [List.take_of_length_le (by rw [hl'])] at hmap
    have hlen : vs.length = n.toNat := by
      have := congrArg List.length hmap
      rw [List.length_map, List.length_map, hl'] at this
      exact this
    refine ⟨vs, hvs, hlen, ?_⟩
    have hnd : ((List.range' base n.toNat).map (getId (ringHeap base n.toNat))).Nodup := by
      refine List.Nodup.map_on ?_ hr.1
      intro (x : Nat) hx (y : Nat) hy hxy
      have hx' : @LE.le Nat _ base x ∧ @LT.lt Nat _ x (base + n.toNat) := List.mem_range'_1.1 hx
      have hy' : @LE.le Nat _ base y ∧ @LT.lt Nat _ y (base + n.toNat) := List.mem_range'_1.1 hy
      obtain ⟨hx1, hx2⟩ := hx'
      obtain ⟨hy1, hy2⟩ := hy'
      have ex := getId_ringHeap base n.toNat (x - base) (by omega)
      have ey := getId_ringHeap base n.toNat (y - base) (by omega)
      rw [Nat.add_sub_cancel' hx1] at ex
      rw [Nat.add_sub_cancel' hy1] at ey
      rw [ex, ey] at hxy
      have := Option.some.inj hxy
      show @Eq Nat x y
      omega
    have hnd' : (((List.range' base n.toNat).rotate k).map (getId (ringHeap base n.toNat))).Nodup :=
      ((List.rotate_perm _ k).map _).nodup_iff.2 hnd
    rw [← hmap] at hnd'
    exact List.Nodup.of_map _ hnd'

/-- C2, amended, at ring size 5 allocated from address 7. -/
theorem RingConstruct_single_cycle_witness :
    (1 : Int) ≤ 5 ∧ (5 : Int) < INT_MAX ∧ ∃ (head : Ptr) (h : Heap) (L : List Ptr),
      RingConstruct 5 (Heap.init 7) = some (head, h) ∧
      L.Nodup ∧ (L.length : Int) = 5 ∧ (∀ p, (h.cells p).isSome = true ↔ p ∈ L) ∧ head ∈ L ∧
      ∀ p, p ∈ L →
        followNext h (5 : Int).toNat p = some p ∧
        (∀ j, 0 < j → j < (5 : Int).toNat → followNext h j p ≠ some p) ∧
        ∃ vs, walkIds h (5 : Int).toNat p = some vs ∧ vs.length = (5 : Int).toNat ∧ vs.Nodup :=
  ⟨by decide, by decide, RingConstruct_single_cycle 5 (by decide) (by decide) 7⟩

/-! ## Counting and removal on a well-formed ring -/

/-- C6, amended: on a well-formed ring, for a live `start` and a positive
`bound` below `INT_MAX`, `count` succeeds and returns the live participant
reached from `start` by following `next` exactly `bound - 1` times;
`count start 1` is `start`. -/
theorem count_follows_next (h : Heap) (L : List Ptr) (start : Ptr) (bound : Int)
    (hr : IsRing h L) (hs : start ∈ L) (hb : 0 < bound) (hB : bound < INT_MAX) :
    ∃ (t : Ptr) (k : Nat), (k : Int) = bound - 1 ∧ t ∈ L ∧ count h start bound = some t ∧
      followNext h k start = some t ∧ count h start 1 = some start := by
  obtain ⟨j, rest, -, hrot⟩ := exists_rotate_head L start hs
  have hr' := isRing_rotate hr j
  have hl' : 0 < (L.rotate j).length := by rw [hrot]; simp
  have hc := count_ring hr' hl' bound hB
  have hs0 : nth (L.rotate j) 0 = start := by rw [hrot, nth_cons_zero]
  rw [hs0] at hc
  refine ⟨_, (bound - 1).toNat, by omega, ?_, hc, ?_, ?_⟩
  · have := nth_mem ((L.rotate j).rotate (bound - 1).toNat) 0 (by rw [List.length_rotate]; exact hl')
    exact List.mem_rotate.1 (List.mem_rotate.1 this)
  · rw [← count_eq_followNext h start bound hB]; exact hc
  · rw [count_eq_followNext h start 1 (by decide)]; rfl

/-- C6, amended, on the ring of three participants built at address 0:
counting 5 from participant 1 makes four steps and lands on participant 2
(address 1). -/
theorem count_follows_next_witness :
    IsRing (ringHeap 0 3) (List.range' 0 3) ∧ (0 : Ptr) ∈ List.range' 0 3 ∧ (0 : Int) < 5 ∧
    (5 : Int) < INT_MAX ∧
    (∃ (t : Ptr) (k : Nat), (k : Int) = 5 - 1 ∧ t ∈ List.range' 0 3 ∧
      count (ringHeap 0 3) 0 5 = some t ∧ followNext (ringHeap 0 3) k 0 = some t ∧
      count (ringHeap 0 3) 0 1 = some 0) ∧ count (ringHeap 0 3) 0 5 = some 1 :=
  ⟨isRing_ringHeap 0 3, by decide, by decide, by decide,
    count_follows_next (ringHeap 0 3) (List.range' 0 3) 0 5 (isRing_ringHeap 0 3) (by decide)
      (by decide) (by decide), by decide⟩

/-- C7: on a well-formed ring with at least two live participants, for a live
target `T` with predecessor `P`, successor `S` and identifier `v`, `removeNode T`
succeeds, returns `S` and prints `v`; afterwards `T` is freed, the `next` of `P`
is `S` and the `pre` of `S` is `P`. -/
theorem removeNode_relinks (h : Heap) (L : List Ptr) (T P S : Ptr) (v : Int)
    (hr : IsRing h L) (h2 : 2 ≤ L.length) (hT : T ∈ L) (hP : getPre h T = some P)
    (hS : getNext h T = some S) (hv : getId h T = some v) :
    ∃ h', removeNode h T = some (S, h', v) ∧ h'.cells T = none ∧
      getNext h' P = some S ∧ getPre h' S = some P := by
  obtain ⟨j, rest, -, hrot⟩ := exists_rotate_head L T hT
  have hr' := isRing_rotate hr j
  have hlen : (L.rotate j).length = L.length := List.length_rotate L j
  rw [hrot] at hr' hlen
  cases rest with
  | nil => simp at hlen; omega
  | cons b r =>
    obtain ⟨c, hc⟩ := isRing_cell hr' 0 (by simp)
    have hl3 : (T :: b :: r).length = r.length + 2 := rfl
    rw [hl3, nth_cons_zero, if_neg (by omega), if_pos rfl,
      show r.length + 2 - 1 = r.length + 1 from rfl, nth_cons_succ, nth_cons_succ,
      nth_cons_zero] at hc
    rw [getPre_of_cell hc] at hP
    rw [getNext_of_cell hc] at hS
    rw [getId_of_cell hc] at hv
    have eP : nth (b :: r) r.length = P := Option.some.inj hP
    have eS : b = S := Option.some.inj hS
    have ev : c = v := Option.some.inj hv
    subst eS; subst ev
    obtain ⟨h', v', g1, g2, g3, -⟩ := isRing_remove_head hr'
    rw [getId_of_cell hc] at g2
    have ev' : c = v' := Option.some.inj g2
    subst ev'
    have hl2 : (b :: r).length = r.length + 1 := rfl
    refine ⟨h', g1, g3.2.1 T (List.nodup_cons.1 hr'.1).1, ?_, ?_⟩
    · obtain ⟨w, hw⟩ := isRing_cell g3 r.length (by rw [hl2]; omega)
      rw [hl2, if_pos rfl, nth_cons_zero, eP] at hw
      rw [getNext_of_cell hw]
    · obtain ⟨w, hw⟩ := isRing_cell g3 0 (by rw [hl2]; omega)
      rw [hl2, if_pos rfl, nth_cons_zero, Nat.add_sub_cancel, eP] at hw
      rw [getPre_of_cell hw]

/-- C7, on the ring of three participants built at address 0: removing
participant 2 (address 1) links participant 1 to participant 3. -/
theorem removeNode_relinks_witness :
    IsRing (ringHeap 0 3) (List.range' 0 3) ∧
    ∃ h', removeNode (ringHeap 0 3) 1 = some (2, h', 2) ∧ h'.cells 1 = none ∧
      getNext h' 0 = some 2 ∧ getPre h' 2 = some 0 :=
  ⟨isRing_ringHeap 0 3,
    removeNode_relinks (ringHeap 0 3) (List.range' 0 3) 1 0 2 2 (isRing_ringHeap 0 3)
      (by decide) (by decide) (by decide) (by decide) (by decide)⟩

/-- C9, amended: on a ring whose only live participant is `X`, `count X bound`
returns `X` for every bound below `INT_MAX` (positive or not), and the
`removeNode` that follows succeeds, prints the identifier of `X` and leaves
nothing allocated. -/
theorem single_ring_eliminated (h : Heap) (X : Ptr) (bound : Int) (hr : IsRing h [X])
    (hB : bound < INT_MAX) :
    count h X bound = some X ∧
    ∃ s h' v, removeNode h X = some (s, h', v) ∧ getId h X = some v ∧
      ∀ p, h'.cells p = none := by
  constructor
  · have := count_ring hr (by simp) bound hB
    rw [nth_cons_zero] at this
    rw [this, List.rotate_singleton, nth_cons_zero]
  · obtain ⟨h', v, g1, g2, g3⟩ := isRing_remove_single hr
    exact ⟨X, h', v, g1, g2, fun p => g3.2.1 p (by simp)⟩

/-- C9, amended, on the ring of one participant built at address 4, with
bound 13. -/
theorem single_ring_eliminated_witness :
    IsRing (ringHeap 4 1) [4] ∧ (13 : Int) < INT_MAX ∧ count (ringHeap 4 1) 4 13 = some 4 ∧
    ∃ s h' v, removeNode (ringHeap 4 1) 4 = some (s, h', v) ∧ getId (ringHeap 4 1) 4 = some v ∧
      ∀ p, h'.cells p = none :=
  ⟨isRing_ringHeap 4 1, by decide,
    single_ring_eliminated (ringHeap 4 1) 4 13 (isRing_ringHeap 4 1) (by decide)⟩

/-! ## The link-inverse invariant -/

theorem getNext_unlinked (h : Heap) (T S P : Ptr) (ndS ndP : Node) (x : Ptr) :
    getNext (unlinked h T S P ndS ndP) x =
      if x = T then none else if x = P then some S else if x = S then ndS.next
      else getNext h x := by
  simp only [getNext, unlinked]
  by_cases e1 : x = T
  · simp [e1]
  · by_cases e2 : x = S
    · subst e2
      by_cases e3 : x = P
      · subst e3; simp [e1]
      · simp [e1, e3]
    · by_cases e3 : x = P
      · subst e3; simp [e1, e2]
      · simp [e1, e2, e3]

theorem getPre_unlinked (h : Heap) (T S P : Ptr) (ndS ndP : Node) (x : Ptr) :
    getPre (unlinked h T S P ndS ndP) x =
      if x = T then none else if x = S then some P else if x = P then ndP.pre
      else getPre h x := by
  simp only [getPre, unlinked]
  by_cases e1 : x = T
  · simp [e1]
  · by_cases e2 : x = S
    · subst e2; simp [e1]
    · by_cases e3 : x = P
      · subst e3; simp [e1, e2]
      · simp [e1, e2, e3]

theorem live_unlinked (h : Heap) (T S P : Ptr) (ndS ndP : Node) (x : Ptr)
    (hx : ((unlinked h T S P ndS ndP).cells x).isSome = true) :
    x ≠ T ∧ (x = S ∨ x = P ∨ (h.cells x).isSome = true) := by
  simp only [unlinked] at hx
  by_cases e1 : x = T
  · simp [e1] at hx
  · refine ⟨e1, ?_⟩
    by_cases e2 : x = S
    · exact Or.inl e2
    · by_cases e3 : x = P
      · exact Or.inr (Or.inl e3)
      · simp only [if_neg e1, if_neg e2, if_neg e3] at hx
        exact Or.inr (Or.inr hx)

theorem linkInverse_of_isRing {h : Heap} {L : List Ptr} (hr : IsRing h L) : LinkInverse h := by
  intro p hp
  obtain ⟨i, hi, rfl⟩ := exists_nth_of_mem L p ((isRing_live hr _).1 hp)
  obtain ⟨v, hv⟩ := isRing_cell hr i hi
  have b1 : (if i + 1 = L.length then 0 else i + 1) < L.length := by split_ifs <;> omega
  have b2 : (if i = 0 then L.length - 1 else i - 1) < L.length := by split_ifs <;> omega
  obtain ⟨v1, hv1⟩ := isRing_cell hr _ b1
  obtain ⟨v2, hv2⟩ := isRing_cell hr _ b2
  have key1 : (if (if i + 1 = L.length then 0 else i + 1) = 0 then L.length - 1
      else (if i + 1 = L.length then 0 else i + 1) - 1) = i := by
    by_cases h1 : i + 1 = L.length
    · rw [if_pos h1, if_pos rfl]; omega
    · rw [if_neg h1, if_neg (by omega)]; omega
  have key2 : (if (if i = 0 then L.length - 1 else i - 1) + 1 = L.length then 0
      else (if i = 0 then L.length - 1 else i - 1) + 1) = i := by
    by_cases h1 : i = 0
    · rw [if_pos h1, if_pos (by omega)]; omega
    · rw [if_neg h1, if_neg (by omega)]; omega
  rw [key1] at hv1
  rw [key2] at hv2
  exact ⟨_, _, by rw [getNext_of_cell hv], by rw [getPre_of_cell hv],
    by rw [getPre_of_cell hv1], by rw [getNext_of_cell hv2]⟩

/-- The link-inverse invariant survives `removeNode` on a live target whose
identifier is written. -/
theorem linkInverse_removeNode {h : Heap} {T : Ptr} {v : Int} (hinv : LinkInverse h)
    (hT : getId h T = some v) :
    ∃ s h', removeNode h T = some (s, h', v) ∧
      (∀ p, (h'.cells p).isSome = true ↔ (p ≠ T ∧ (h.cells p).isSome = true)) ∧
      LinkInverse h' := by
  cases hc : h.cells T with
  | none => simp [getId, hc] at hT
  | some nd =>
    have hv : nd.id = some v := by rw [getId_of_cell hc] at hT; exact hT
    obtain ⟨S, P, hS, hP, hSp, hPn⟩ := hinv T (by rw [hc]; rfl)
    cases hcS : h.cells S with
    | none => simp [getPre, hcS] at hSp
    | some ndS =>
      cases hcP : h.cells P with
      | none => simp [getNext, hcP] at hPn
      | some ndP =>
        have hn' : nd.next = some S := by rw [getNext_of_cell hc] at hS; exact hS
        have hp' : nd.pre = some P := by rw [getPre_of_cell hc] at hP; exact hP
        have hSp' : ndS.pre = some T := by rw [getPre_of_cell hcS] at hSp; exact hSp
        have hPn' : ndP.next = some T := by rw [getNext_of_cell hcP] at hPn; exact hPn
        have hlv : ∀ p, ((unlinked h T S P ndS ndP).cells p).isSome = true ↔
            (p ≠ T ∧ (h.cells p).isSome = true) := by
          intro p
          constructor
          · intro hp
            obtain ⟨hpT, hlive⟩ := live_unlinked h T S P ndS ndP p hp
            refine ⟨hpT, ?_⟩
            rcases hlive with e | e | e
            · rw [e, hcS]; rfl
            · rw [e, hcP]; rfl
            · exact e
          · rintro ⟨hpT, hp⟩
            simp only [unlinked, if_neg hpT]
            by_cases e2 : p = S
            · rw [if_pos e2]; rfl
            · by_cases e3 : p = P
              · rw [if_neg e2, if_pos e3]; rfl
              · rw [if_neg e2, if_neg e3]; exact hp
        refine ⟨S, _, removeNode_eq hc hv hn' hp' hcS hcP, hlv, ?_⟩
        intro p hp
        obtain ⟨hpT, hlive'⟩ := (hlv p).1 hp
        obtain ⟨q, r, hq, hr, hqp, hrn⟩ := hinv p hlive'
        have hqT : q = T → p = P := by
          intro e; rw [e, hP] at hqp; exact (Option.some.inj hqp).symm
        have hrT : r = T → p = S := by
          intro e; rw [e, hS] at hrn; exact (Option.some.inj hrn).symm
        have hqS : q = S → p = T := by
          intro e; rw [e, hSp] at hqp; exact (Option.some.inj hqp).symm
        have hrP : r = P → p = T := by
          intro e; rw [e, hPn] at hrn; exact (Option.some.inj hrn).symm
        have hpP : p = P → q = T := by
          intro e; rw [e, hPn] at hq; exact (Option.some.inj hq).symm
        have hpS : p = S → r = T := by
          intro e; rw [e, hSp] at hr; exact (Option.some.inj hr).symm
        have hSn : getNext h S = ndS.next := getNext_of_cell hcS
        have hPp : getPre h P = ndP.pre := getPre_of_cell hcP
        by_cases e1 : p = P
        · by_cases e2 : p = S
          · -- the remaining ring is the single participant `S = P`
            refine ⟨S, P, ?_, ?_, ?_, ?_⟩
            · rw [getNext_unlinked, if_neg hpT, if_pos e1]
            · rw [getPre_unlinked, if_neg hpT, if_pos e2]
            · rw [getPre_unlinked, if_neg (e2 ▸ hpT), if_pos rfl, ← e1]
            · rw [getNext_unlinked, if_neg (e1 ▸ hpT), if_pos rfl, ← e2]
          · refine ⟨S, r, ?_, ?_, ?_, ?_⟩
            · rw [getNext_unlinked, if_neg hpT, if_pos e1]
            · rw [getPre_unlinked, if_neg hpT, if_neg e2, if_pos e1, ← hPp, ← e1, hr]
            · have hST : S ≠ T := fun e => hpT (by
                have := hqS (by rw [hpP e1, e]); exact this)
              rw [getPre_unlinked, if_neg hST, if_pos rfl, ← e1]
            · have hrT' : r ≠ T := fun e => e2 (hrT e)
              have hrP' : r ≠ P := fun e => hpT (hrP e)
              rw [getNext_unlinked, if_neg hrT', if_neg hrP']
              by_cases e3 : r = S
              · rw [if_pos e3, ← hSn, ← e3, hrn]
              · rw [if_neg e3, hrn]
        · by_cases e2 : p = S
          · refine ⟨q, P, ?_, ?_, ?_, ?_⟩
            · rw [getNext_unlinked, if_neg hpT, if_neg e1, if_pos e2, ← hSn, ← e2, hq]
            · rw [getPre_unlinked, if_neg hpT, if_pos e2]
            · have hqT' : q ≠ T := fun e => e1 (hqT e)
              have hqS' : q ≠ S := fun e => hpT (hqS e)
              rw [getPre_unlinked, if_neg hqT', if_neg hqS']
              by_cases e3 : q = P
              · rw [if_pos e3, ← hPp, ← e3, hqp]
              · rw [if_neg e3, hqp]
            · have hPT : P ≠ T := fun e => hpT (by
                have := hrP (by rw [hpS e2, e]); exact this)
              rw [getNext_unlinked, if_neg hPT, if_pos rfl, ← e2]
          · refine ⟨q, r, ?_, ?_, ?_, ?_⟩
            · rw [getNext_unlinked, if_neg hpT, if_neg e1, if_neg e2, hq]
            · rw [getPre_unlinked, if_neg hpT, if_neg e2, if_neg e1, hr]
            · have hqT' : q ≠ T := fun e => e1 (hqT e)
              have hqS' : q ≠ S := fun e => hpT (hqS e)
              rw [getPre_unlinked, if_neg hqT', if_neg hqS']
              by_cases e3 : q = P
              · rw [if_pos e3, ← hPp, ← e3, hqp]
              · rw [if_neg e3, hqp]
            · have hrT' : r ≠ T := fun e => e2 (hrT e)
              have hrP' : r ≠ P := fun e => hpT (hrP e)
              rw [getNext_unlinked, if_neg hrT', if_neg hrP']
              by_cases e3 : r = S
              · rw [if_pos e3, ← hSn, ← e3, hrn]
              · rw [if_neg e3, hrn]

/-- C8, amended: the link-inverse invariant (for every live participant `P`,
`P.next.pre` and `P.pre.next` are `P`) holds in the ring `RingConstruct n`
returns for every `1 ≤ n < INT_MAX`, and every `removeNode` call on a live target
preserves it: the call succeeds, the live participants afterwards are those
before the call without the target, and the invariant holds over them. -/
theorem linkInverse_invariant (n : Int) (base : Nat) (h : Heap) (T : Ptr) (v : Int)
    (hn : 1 ≤ n) (hN : n < INT_MAX) (hinv : LinkInverse h) (hT : getId h T = some v) :
    (∃ head h0, RingConstruct n (Heap.init base) = some (head, h0) ∧ LinkInverse h0) ∧
    (∃ s h', removeNode h T = some (s, h', v) ∧
      (∀ p, (h'.cells p).isSome = true ↔ (p ≠ T ∧ (h.cells p).isSome = true)) ∧
      LinkInverse h') := by
  have hm : max 1 n.toNat = n.toNat := by omega
  have hc := RingConstruct_eq n base hN
  rw [hm] at hc
  exact ⟨⟨base, _, hc, linkInverse_of_isRing (isRing_ringHeap base n.toNat)⟩,
    linkInverse_removeNode hinv hT⟩

/-- C8, amended, at ring size 3 built at address 0, removing participant 2. -/
theorem linkInverse_invariant_witness :
    (1 : Int) ≤ 3 ∧ (3 : Int) < INT_MAX ∧ LinkInverse (ringHeap 0 3) ∧ getId (ringHeap 0 3) 1 = some 2 ∧
    (∃ head h0, RingConstruct 3 (Heap.init 0) = some (head, h0) ∧ LinkInverse h0) ∧
    (∃ s h', removeNode (ringHeap 0 3) 1 = some (s, h', 2) ∧
      (∀ p, (h'.cells p).isSome = true ↔ (p ≠ 1 ∧ ((ringHeap 0 3).cells p).isSome = true)) ∧
      LinkInverse h') :=
  ⟨by decide, by decide, linkInverse_of_isRing (isRing_ringHeap 0 3), by decide,
    linkInverse_invariant 3 0 (ringHeap 0 3) 1 2 (by decide) (by decide)
      (linkInverse_of_isRing (isRing_ringHeap 0 3)) (by decide)⟩

/-! ## Single rounds of the driver -/

theorem driverLoop_split (m n : Int) (hmn : m ≤ n) (hN : n < INT_MAX) :
    ∀ (r : Nat) (i : Int) (first : Ptr) (h : Heap) (out : List Int) (s : Ptr × Heap × List Int),
      (r : Int) = m + 1 - i → driverLoop m (r + 1) i first h out = some s →
      ∀ F, driverLoop n (r + F) i first h out = driverLoop n F (m + 1) s.1 s.2.1 s.2.2 := by
  intro r
  induction r with
  | zero =>
    intro i first h out s hri hs F
    have hi : ¬ i ≤ m := by
      have : ((0 : Nat) : Int) = 0 := rfl
      omega
    have him : i = m + 1 := by
      have : ((0 : Nat) : Int) = 0 := rfl
      omega
    simp only [driverLoop, hi, if_false, Option.some.injEq] at hs
    subst hs
    rw [Nat.zero_add, him]
  | succ r ih =>
    intro i first h out s hri hs F
    have hc : ((r + 1 : Nat) : Int) = (r : Int) + 1 := by push_cast; rfl
    have hi : i ≤ m := by omega
    have hin : i ≤ n := by omega
    have hiI := intIncr_of_lt (lt_of_le_of_lt hin hN)
    have hF : r + 1 + F = (r + F) + 1 := by omega
    rw [hF]
    rw [driverLoop] at hs ⊢
    simp only [hi, hin, if_true] at hs ⊢
    cases hb : boundMachine i with
    | none => simp [hb] at hs
    | some b =>
      cases hct : count h first b with
      | none => simp [hb, hct] at hs
      | some t =>
        cases hrm : removeNode h t with
        | none => simp [hb, hct, hrm] at hs
        | some res =>
          obtain ⟨first1, h1, v⟩ := res
          simp only [hb, hct, hrm, hiI, Option.bind_eq_bind, Option.some_bind] at hs ⊢
          exact ih (i + 1) first1 h1 (out ++ [v]) s (by omega) hs F

/-- The run of the driver passes through `roundStart n base k`: it is the loop
of `main` resumed at round `k` from that state. -/
theorem driver_factors (n k : Int) (base : Nat) (hk1 : 1 ≤ k) (hkn : k ≤ n + 1)
    (hN : n < INT_MAX) :
    ∀ s, roundStart n base k = some s →
      driver n base = driverLoop n (n.toNat + 2 - k.toNat) k s.1 s.2.1 s.2.2 := by
  intro s hs
  have hc := RingConstruct_eq n base hN
  simp only [roundStart, hc, Option.bind_eq_bind, Option.some_bind] at hs
  have hk : k.toNat = (k - 1).toNat + 1 := by omega
  rw [hk] at hs
  have := driverLoop_split (k - 1) n (by omega) hN (k - 1).toNat 1 base _ [] s (by omega) hs
    (n.toNat + 2 - k.toNat)
  have hf : (k - 1).toNat + (n.toNat + 2 - k.toNat) = n.toNat + 1 := by omega
  rw [hf, show k - 1 + 1 = k by omega] at this
  simp only [driver, hc, Option.bind_eq_bind, Option.some_bind]
  exact this

theorem nth_map_add (base : Nat) (L : List Nat) (i : Nat) (hi : i < L.length) :
    nth (L.map (fun x => base + x)) i = base + nth L i := by
  simp [nth, hi]

/-- Round `k` of the driver for ring size `n`, read off the reference
elimination on the positions `0, …, n - 1` (position `j` holds identifier
`j + 1`): with `rem` the participants left after `k - 1` rounds, the round
starts at the head of `rem`, and eliminates the head of `rem` rotated by
`bound - 1`. -/
theorem roundTrace_eq (n k : Int) (base : Nat) (hk1 : 1 ≤ k) (hkn : k ≤ n)
    (hN : n < INT_MAX) :
    ∃ b, boundMachine k = some b ∧
      roundTrace n base k = some
        (((nth (josephus (k - 1).toNat 1 (List.range n.toNat)).2 0 : Nat) : Int) + 1, b,
         ((nth ((josephus (k - 1).toNat 1 (List.range n.toNat)).2.rotate (b - 1).toNat) 0 : Nat)
            : Int) + 1) := by
  obtain ⟨b, hb, -, hbI⟩ := boundMachine_spec_aux k (by omega)
  refine ⟨b, hb, ?_⟩
  have hm : max 1 n.toNat = n.toNat := by omega
  have hc := RingConstruct_eq n base hN
  rw [hm] at hc
  have hl : (List.range' base n.toNat).length = n.toNat := List.length_range' _ _ _
  have hids : ∀ x, x ∈ List.range' base n.toNat →
      getId (ringHeap base n.toNat) x = some (((x - base : Nat) : Int) + 1) := by
    intro (x : Nat) hx
    have hx' : @LE.le Nat _ base x ∧ @LT.lt Nat _ x (base + n.toNat) := List.mem_range'_1.1 hx
    have := getId_ringHeap base n.toNat (x - base) (by omega)
    rwa [Nat.add_sub_cancel' hx'.1] at this
  obtain ⟨first', h', g1, g2, g3, g4⟩ := driverLoop_josephus (k - 1)
    (fun a => (((a - base : Nat) : Int) + 1)) (by omega) (k - 1).toNat (List.range' base n.toNat) k.toNat 1
    base (ringHeap base n.toNat) [] (isRing_ringHeap base n.toNat) (by rw [hl]; omega) (le_refl 1)
    (by omega) (by omega)
    (fun _ => by rw [nth_range' base n.toNat 0 (by omega)]; rfl) hids
  -- the participants left, as positions shifted by `base`
  have hmap : (josephus (k - 1).toNat 1 (List.range' base n.toNat)).2 =
      (josephus (k - 1).toNat 1 (List.range n.toNat)).2.map (fun x => base + x) := by
    rw [List.range'_eq_map_range, josephus_map]
  generalize (josephus (k - 1).toNat 1 (List.range' base n.toNat)).1 = elim at g1
  have hlen : ((josephus (k - 1).toNat 1 (List.range n.toNat)).2).length
      = n.toNat - (k - 1).toNat := by
    have h1 := (josephus_perm (k - 1).toNat 1 (List.range n.toNat)).length_eq
    have h2 := josephus_length (k - 1).toNat 1 (List.range n.toNat) (le_refl 1)
      (by rw [List.length_range]; omega)
    rw [List.length_append, h2, List.length_range] at h1
    omega
  rw [hmap] at g2 g3 g4
  generalize (josephus (k - 1).toNat 1 (List.range n.toNat)).2 = rem at g2 g3 g4 hlen ⊢
  have hpos : 0 < rem.length := by omega
  have hne : rem.map (fun x => base + x) ≠ [] := by
    intro e
    have := congrArg List.length e
    rw [List.length_map, List.length_nil] at this
    omega
  have hfirst := g3 hne
  have hl2 : 0 < (rem.map (fun x => base + x)).length := by rw [List.length_map]; exact hpos
  have hstart : getId h' first' = some (((nth rem 0 : Nat) : Int) + 1) := by
    rw [g4 first' (by rw [hfirst]; exact nth_mem _ 0 hl2), hfirst, nth_map_add base rem 0 hpos]
    simp
  have hcount : count h' first' b =
      some (nth ((rem.map (fun x => base + x)).rotate (b - 1).toNat) 0) := by
    rw [hfirst]; exact count_ring g2 hl2 b hbI
  have hr' := isRing_rotate g2 (b - 1).toNat
  cases hrot : (rem.map (fun x => base + x)).rotate (b - 1).toNat with
  | nil => exact absurd (List.rotate_eq_nil_iff.1 hrot) hne
  | cons t rest =>
    have ht : t = base + nth (rem.rotate (b - 1).toNat) 0 := by
      have e1 : nth ((rem.map (fun x => base + x)).rotate (b - 1).toNat) 0 = t := by
        rw [hrot, nth_cons_zero]
      rw [← List.map_rotate, nth_map_add base _ 0 (by rw [List.length_rotate]; exact hpos)] at e1
      exact e1.symm
    rw [hrot] at hr' hcount
    rw [nth_cons_zero] at hcount
    obtain ⟨f2, h2, v, e1, e2, -, -, -⟩ := isRing_remove hr'
    have hv : v = ((nth (rem.rotate (b - 1).toNat) 0 : Nat) : Int) + 1 := by
      have hmem : t ∈ rem.map (fun x => base + x) := by
        have : t ∈ (rem.map (fun x => base + x)).rotate (b - 1).toNat := by
          rw [hrot]; exact List.mem_cons_self _ _
        exact List.mem_rotate.1 this
      have := g4 t hmem
      rw [e2, ht] at this
      have := Option.some.inj this
      rw [this]
      simp
    simp only [roundTrace, roundStart, hc, g1, hstart, hb, hcount, e1, hv, Option.bind_eq_bind,
      Option.some_bind, Option.pure_def]

/-- C10 as stated fails: in the run with `n = 20`, round 2 does start at
participant 4 with bound 5, but it eliminates participant 8, not participant 9. -/
theorem round2_not_nine :
    roundTrace 20 0 2 = some (4, 5, 8) ∧ roundTrace 20 0 2 ≠ some (4, 5, 9) := by
  constructor <;> decide

/-- C10, amended: in the run with `n = 20` and bounds cycling `[3, 5, 7, 13]`,
round 2 starts at participant 4 with bound 5 and eliminates participant 8 (four
steps of `next` from participant 4). -/
theorem round2_trace (base : Nat) : roundTrace 20 base 2 = some (4, 5, 8) := by
  obtain ⟨b, hb, ht⟩ := roundTrace_eq 20 2 base (by decide) (by decide) (by decide)
  have hb5 : b = 5 := by
    have : boundMachine 2 = some 5 := by decide
    rw [this] at hb
    exact (Option.some.inj hb).symm
  subst hb5
  rw [ht]
  decide

/-! ## The fixed configuration -/

/-- The identifiers the driver prints for ring size `n ≥ 1`, read off the
reference elimination on the positions `0, …, n - 1` (position `j` holds
identifier `j + 1`). -/
theorem driver_out_eq (n : Int) (hn : 1 ≤ n) (hN : n < INT_MAX) (base : Nat) :
    ∃ first h, driver n base = some (first, h,
        (josephus n.toNat 1 (List.range n.toNat)).1.map (fun (j : Nat) => (j : Int) + 1)) ∧
      ∀ p, h.cells p = none := by
  obtain ⟨first, h, hd, he⟩ := driver_eq n hn hN base
  refine ⟨first, h, ?_, he⟩
  rw [hd, List.range'_eq_map_range, josephus_map]
  simp only [List.map_map]
  congr 3
  refine List.map_congr_left (fun j _ => ?_)
  simp only [Function.comp_apply, Nat.add_sub_cancel_left]

/-- C16: with `N = 20` and the bounds cycling `[3, 5, 7, 13]`, `main` prints
exactly 3, 8, 15, 10, 13, 19, 7, 6, 12, 20, 14, 1, 5, 18, 2, 11, 4, 16, 17, 9. -/
theorem main_elimination_order (base : Nat) :
    ∃ first h, main base = some (first, h,
      [3, 8, 15, 10, 13, 19, 7, 6, 12, 20, 14, 1, 5, 18, 2, 11, 4, 16, 17, 9]) := by
  obtain ⟨first, h, hd, -⟩ := driver_out_eq 20 (by decide) (by decide) base
  refine ⟨first, h, ?_⟩
  have e : (josephus (20 : Int).toNat 1 (List.range (20 : Int).toNat)).1.map
      (fun (j : Nat) => (j : Int) + 1)
      = [3, 8, 15, 10, 13, 19, 7, 6, 12, 20, 14, 1, 5, 18, 2, 11, 4, 16, 17, 9] := by decide
  rw [e] at hd
  exact hd

/-- C17, amended: on a well-formed ring of `m` live participants, for a live
`start` (at position `i` of the listing) and a positive `bound` below
`INT_MAX`, `count` returns the participant reached by following `next` exactly `(bound - 1) mod m` times from
`start`, which is the participant at position `(i + (bound - 1)) mod m`. -/
theorem count_mod_ring (h : Heap) (L : List Ptr) (start : Ptr) (bound : Int)
    (hr : IsRing h L) (hs : start ∈ L) (hb : 0 < bound) (hB : bound < INT_MAX) :
    ∃ (t : Ptr) (k i : Nat), (k : Int) = bound - 1 ∧ i < L.length ∧ nth L i = start ∧
      count h start bound = some t ∧ followNext h (k % L.length) start = some t ∧
      t = nth L ((i + k) % L.length) := by
  obtain ⟨i, hi, rfl⟩ := exists_nth_of_mem L start hs
  refine ⟨nth L ((i + (bound - 1).toNat) % L.length), (bound - 1).toNat, i, by omega, hi, rfl,
    ?_, ?_, rfl⟩
  · rw [count_eq_followNext h _ bound hB, followNext_nth hr _ i hi]
  · rw [followNext_nth hr _ i hi, Nat.add_mod_mod]

/-- C17, amended, on the ring of three participants built at address 0:
counting 13 from participant 2 makes `12 mod 3 = 0` net steps and lands on
participant 2. -/
theorem count_mod_ring_witness :
    IsRing (ringHeap 0 3) (List.range' 0 3) ∧ (1 : Ptr) ∈ List.range' 0 3 ∧ (0 : Int) < 13 ∧
    (13 : Int) < INT_MAX ∧
    (∃ (t : Ptr) (k i : Nat), (k : Int) = 13 - 1 ∧ i < (List.range' 0 3).length ∧
      nth (List.range' 0 3) i = 1 ∧ count (ringHeap 0 3) 1 13 = some t ∧
      followNext (ringHeap 0 3) (k % (List.range' 0 3).length) 1 = some t ∧
      t = nth (List.range' 0 3) ((i + k) % (List.range' 0 3).length)) ∧
    count (ringHeap 0 3) 1 13 = some 1 :=
  ⟨isRing_ringHeap 0 3, by decide, by decide, by decide,
    count_mod_ring (ringHeap 0 3) (List.range' 0 3) 1 13 (isRing_ringHeap 0 3) (by decide)
      (by decide) (by decide), by decide⟩

/-! ## Sizes below one -/

/-- C13 as stated fails: `RingConstruct 0` does not fail; it returns a node
whose identifier is 1. -/
theorem RingConstruct_zero_returns :
    (RingConstruct 0 (Heap.init 0)).isSome = true ∧
    (RingConstruct 0 (Heap.init 0)).bind (fun r => getId r.2 r.1) = some 1 := by
  constructor <;> decide

/-- C13, amended: for every `n < 1`, `RingConstruct n` performs no size check
and does not fail: the loop body never runs and the call returns a well-formed
ring of the single participant with identifier 1, whose `next` and `pre` are
itself. -/
theorem RingConstruct_small (n : Int) (base : Nat) (hn : n < 1) :
    ∃ h, RingConstruct n (Heap.init base) = some (base, h) ∧ IsRing h [base] ∧
      getId h base = some 1 ∧ getNext h base = some base ∧ getPre h base = some base := by
  have hm : max 1 n.toNat = 1 := by omega
  have hc := RingConstruct_eq n base (lt_trans hn (by decide))
  rw [hm] at hc
  have hcell := ringHeap_cells base 1 0 (by omega)
  rw [Nat.add_zero] at hcell
  refine ⟨_, hc, isRing_ringHeap base 1, ?_, ?_, ?_⟩
  · rw [getId_of_cell hcell]; rfl
  · rw [getNext_of_cell hcell]; rfl
  · rw [getPre_of_cell hcell]; rfl

/-- C13, amended, at `n = -3` with the allocator at address 6. -/
theorem RingConstruct_small_witness :
    (-3 : Int) < 1 ∧ ∃ h, RingConstruct (-3) (Heap.init 6) = some (6, h) ∧ IsRing h [6] ∧
      getId h 6 = some 1 ∧ getNext h 6 = some 6 ∧ getPre h 6 = some 6 :=
  ⟨by decide, RingConstruct_small (-3) 6 (by decide)⟩

/-! ## What `removeNode` leaves alone -/

theorem getId_unlinked (h : Heap) (T S P : Ptr) (ndS ndP : Node) (x : Ptr)
    (hS : h.cells S = some ndS) (hP : h.cells P = some ndP) (hx : x ≠ T) :
    getId (unlinked h T S P ndS ndP) x = getId h x := by
  simp only [getId, unlinked, if_neg hx]
  by_cases e2 : x = S
  · subst e2
    by_cases e3 : x = P
    · subst e3
      rw [hS] at hP
      have := Option.some.inj hP
      subst this
      simp [hS]
    · simp [e3, hS]
  · by_cases e3 : x = P
    · subst e3; simp [e2, hP]
    · simp [e2, e3]

/-- The cell of a participant of a ring, with its neighbours live. -/
theorem isRing_neighbours {h : Heap} {L : List Ptr} (hr : IsRing h L) {T : Ptr} (hT : T ∈ L) :
    ∃ (v : Int) (S P : Ptr) (ndS ndP : Node), h.cells T = some ⟨some v, some S, some P⟩ ∧
      h.cells S = some ndS ∧ h.cells P = some ndP ∧ S ∈ L ∧ P ∈ L := by
  obtain ⟨i, hi, rfl⟩ := exists_nth_of_mem L T hT
  obtain ⟨v, hv⟩ := isRing_cell hr i hi
  have b1 : (if i + 1 = L.length then 0 else i + 1) < L.length := by split_ifs <;> omega
  have b2 : (if i = 0 then L.length - 1 else i - 1) < L.length := by split_ifs <;> omega
  obtain ⟨v1, hv1⟩ := isRing_cell hr _ b1
  obtain ⟨v2, hv2⟩ := isRing_cell hr _ b2
  exact ⟨v, _, _, _, _, hv, hv1, hv2, nth_mem L _ b1, nth_mem L _ b2⟩

/-- C18: on a well-formed ring, `removeNode T` (with `S` and `P` the successor
and predecessor of `T`) succeeds and, apart from freeing `T`, changes only the
`next` of `P` and the `pre` of `S`: every other address keeps its allocation
status and its identifier, every address other than `P` keeps its `next`, and
every address other than `S` keeps its `pre`. -/
theorem removeNode_frame (h : Heap) (L : List Ptr) (T : Ptr) (hr : IsRing h L) (hT : T ∈ L) :
    ∃ (S P : Ptr) (h' : Heap) (v : Int), getNext h T = some S ∧ getPre h T = some P ∧
      removeNode h T = some (S, h', v) ∧ h'.brk = h.brk ∧
      ∀ x, x ≠ T →
        (h'.cells x).isSome = (h.cells x).isSome ∧ getId h' x = getId h x ∧
        (x ≠ P → getNext h' x = getNext h x) ∧ (x ≠ S → getPre h' x = getPre h x) := by
  obtain ⟨v, S, P, ndS, ndP, hc, hS, hP, -, -⟩ := isRing_neighbours hr hT
  refine ⟨S, P, unlinked h T S P ndS ndP, v, by rw [getNext_of_cell hc],
    by rw [getPre_of_cell hc], removeNode_eq hc rfl rfl rfl hS hP, rfl, ?_⟩
  intro x hx
  refine ⟨?_, getId_unlinked h T S P ndS ndP x hS hP hx, ?_, ?_⟩
  · simp only [unlinked, if_neg hx]
    by_cases e2 : x = S
    · rw [if_pos e2, e2, hS]; rfl
    · by_cases e3 : x = P
      · rw [if_neg e2, if_pos e3, e3, hP]; rfl
      · rw [if_neg e2, if_neg e3]
  · intro hxP
    rw [getNext_unlinked, if_neg hx, if_neg hxP]
    by_cases e2 : x = S
    · rw [if_pos e2, e2, getNext_of_cell hS]
    · rw [if_neg e2]
  · intro hxS
    rw [getPre_unlinked, if_neg hx, if_neg hxS]
    by_cases e3 : x = P
    · rw [if_pos e3, e3, getPre_of_cell hP]
    · rw [if_neg e3]

/-- C18, on the ring of four participants built at address 0, removing
participant 2 (address 1). -/
theorem removeNode_frame_witness :
    IsRing (ringHeap 0 4) (List.range' 0 4) ∧ (1 : Ptr) ∈ List.range' 0 4 ∧
    ∃ (S P : Ptr) (h' : Heap) (v : Int), getNext (ringHeap 0 4) 1 = some S ∧
      getPre (ringHeap 0 4) 1 = some P ∧
      removeNode (ringHeap 0 4) 1 = some (S, h', v) ∧ h'.brk = (ringHeap 0 4).brk ∧
      ∀ x, x ≠ 1 →
        (h'.cells x).isSome = ((ringHeap 0 4).cells x).isSome ∧
        getId h' x = getId (ringHeap 0 4) x ∧
        (x ≠ P → getNext h' x = getNext (ringHeap 0 4) x) ∧
        (x ≠ S → getPre h' x = getPre (ringHeap 0 4) x) :=
  ⟨isRing_ringHeap 0 4, by decide,
    removeNode_frame (ringHeap 0 4) (List.range' 0 4) 1 (isRing_ringHeap 0 4) (by decide)⟩

/-! ## No dangling relation -/

/-- Removing any participant of a ring: the call succeeds and leaves the ring
of the other participants, listed in the same cyclic order. -/
theorem isRing_removeNode {h : Heap} {L : List Ptr} (hr : IsRing h L) {T : Ptr} (hT : T ∈ L) :
    ∃ s h' v, removeNode h T = some (s, h', v) ∧ getId h T = some v ∧
      getNext h T = some s ∧ IsRing h' (L.erase T) ∧ (2 ≤ L.length → s ∈ L.erase T) := by
  obtain ⟨k, hk, rfl⟩ := List.getElem_of_mem hT
  have hrot : L.rotate k = L[k] :: (L.drop (k + 1) ++ L.take k) := by
    rw [List.rotate_eq_drop_append_take (Nat.le_of_lt hk), List.drop_eq_getElem_cons hk]
    rfl
  have herase : L.erase L[k] = L.take k ++ L.drop (k + 1) := by
    rw [hr.1.erase_getElem k hk, List.eraseIdx_eq_take_drop_succ]
  have hr' := isRing_rotate hr k
  rw [hrot] at hr'
  obtain ⟨s, h', v, e1, e2, e3, e4, -⟩ := isRing_remove hr'
  have e5 := isRing_rotate e3 (L.drop (k + 1)).length
  rw [List.rotate_append_length_eq, ← herase] at e5
  have hnx : getNext h L[k] = some s := by
    simp only [removeNode, Option.bind_eq_bind] at e1
    cases hg : getNext h L[k] with
    | none => simp [hg] at e1
    | some q =>
      simp only [hg, Option.some_bind] at e1
      cases hp : getPre h L[k] with
      | none => simp [hp] at e1
      | some pp =>
        simp only [hp, Option.some_bind] at e1
        cases hsn : setNext h pp q with
        | none => simp [hsn] at e1
        | some h1 =>
          simp only [hsn, Option.some_bind] at e1
          cases hp2 : getPre h1 L[k] with
          | none => simp [hp2] at e1
          | some pp2 =>
            simp only [hp2, Option.some_bind] at e1
            cases hsp : setPre h1 q pp2 with
            | none => simp [hsp] at e1
            | some h2 =>
              simp only [hsp, Option.some_bind] at e1
              cases hid : getId h2 L[k] with
              | none => simp [hid] at e1
              | some w =>
                simp only [hid, Option.some_bind] at e1
                cases hf : free h2 L[k] with
                | none => simp [hf] at e1
                | some h3 =>
                  simp only [hf, Option.some_bind, Option.pure_def, Option.some.injEq,
                    Prod.mk.injEq] at e1
                  rw [e1.1]
  refine ⟨s, h', v, e1, e2, hnx, e5, ?_⟩
  intro h2
  have hlen : (L.drop (k + 1) ++ L.take k).length = L.length - 1 := by
    simp only [List.length_append, List.length_drop, List.length_take]
    omega
  have hne : L.drop (k + 1) ++ L.take k ≠ [] := by
    intro e
    rw [e, List.length_nil] at hlen
    omega
  rw [e4 hne]
  have := nth_mem (L.drop (k + 1) ++ L.take k) 0 (by rw [hlen]; omega)
  rw [herase]
  exact List.mem_append.2 ((List.mem_append.1 this).symm)

/-- C12 as stated fails: on the ring of one participant the handle returned by
`removeNode` is the removed (freed) participant itself. -/
theorem removeNode_single_returns_target :
    IsRing (ringHeap 0 1) [0] ∧
    (removeNode (ringHeap 0 1) 0).map (fun r => r.1) = some 0 ∧
    (removeNode (ringHeap 0 1) 0).map (fun r => r.2.1.cells 0) = some none :=
  ⟨isRing_ringHeap 0 1, by decide, by decide⟩

/-- C12, amended: after `removeNode T` on a well-formed ring, `T` is freed and
no remaining live participant has a `next` or `pre` that references `T`; the
handle returned is the former successor of `T` (its `next` before the call),
and when the ring had at least two live participants that successor is a
remaining live participant, hence not `T`. -/
theorem removeNode_no_dangling (h : Heap) (L : List Ptr) (T : Ptr) (hr : IsRing h L)
    (hT : T ∈ L) :
    ∃ s h' v, getNext h T = some s ∧ removeNode h T = some (s, h', v) ∧ h'.cells T = none ∧
      (∀ x, (h'.cells x).isSome = true → getNext h' x ≠ some T ∧ getPre h' x ≠ some T) ∧
      (2 ≤ L.length → s ≠ T ∧ (h'.cells s).isSome = true) := by
  obtain ⟨s, h', v, e1, -, hsucc, e3, e4⟩ := isRing_removeNode hr hT
  have hTn : T ∉ L.erase T := fun hm => ((hr.1.mem_erase_iff).1 hm).1 rfl
  refine ⟨s, h', v, hsucc, e1, e3.2.1 T hTn, ?_, ?_⟩
  · intro x hx
    obtain ⟨i, hi, rfl⟩ := exists_nth_of_mem _ x ((isRing_live e3 x).1 hx)
    have hpos : 0 < (L.erase T).length := by omega
    constructor
    · rw [isRing_getNext e3 i hi]
      intro e
      have hm := nth_mem (L.erase T) _ (Nat.mod_lt (i + 1) hpos)
      rw [Option.some.inj e] at hm
      exact hTn hm
    · rw [isRing_getPre e3 i hi]
      intro e
      have hm := nth_mem (L.erase T) _ (Nat.mod_lt (i + (L.erase T).length - 1) hpos)
      rw [Option.some.inj e] at hm
      exact hTn hm
  · intro h2
    have hs := e4 h2
    exact ⟨fun e => hTn (e ▸ hs), (isRing_live e3 s).2 hs⟩

/-- C12, amended, on the ring of three participants built at address 0,
removing participant 3 (address 2). -/
theorem removeNode_no_dangling_witness :
    IsRing (ringHeap 0 3) (List.range' 0 3) ∧ (2 : Ptr) ∈ List.range' 0 3 ∧
    ∃ s h' v, getNext (ringHeap 0 3) 2 = some s ∧
      removeNode (ringHeap 0 3) 2 = some (s, h', v) ∧ h'.cells 2 = none ∧
      (∀ x, (h'.cells x).isSome = true → getNext h' x ≠ some 2 ∧ getPre h' x ≠ some 2) ∧
      (2 ≤ (List.range' 0 3).length → s ≠ 2 ∧ (h'.cells s).isSome = true) :=
  ⟨isRing_ringHeap 0 3, by decide,
    removeNode_no_dangling (ringHeap 0 3) (List.range' 0 3) 2 (isRing_ringHeap 0 3) (by decide)⟩

/-! ## The cycle after a removal -/

theorem walk_head {h : Heap} : ∀ (k : Nat) (L : List Ptr), IsRing h L → k ≤ L.length →
    0 < L.length → walk h k (nth L 0) = some (L.take k) := by
  intro k
  induction k with
  | zero => intro L _ _ _; rfl
  | succ k ih =>
    intro L hr hk hl
    cases L with
    | nil => exact absurd hl (by simp)
    | cons x t =>
      have hn := isRing_getNext hr 0 hl
      rw [Nat.zero_add, ← nth_rotate_zero (x :: t) 1 hl] at hn
      have hr' := isRing_rotate hr 1
      have hrot : (x :: t).rotate 1 = t ++ [x] := by
        rw [List.rotate_cons_succ, List.rotate_zero]
      rw [hrot] at hr' hn
      have hlt : k ≤ t.length := by simpa using hk
      have hw := ih (t ++ [x]) hr' (by simp; omega) (by simp)
      rw [List.take_append_of_le_length hlt] at hw
      rw [nth_cons_zero] at hn ⊢
      simp only [walk, hn, hw, Option.bind_eq_bind, Option.some_bind, Option.pure_def,
        List.take_succ_cons]

/-- On a ring of `m` participants, `m` steps of `next` from any participant
return to it, no smaller positive number of steps does, and the `m`
participants met are the listing of the ring rotated to start there. -/
theorem isRing_cycle {h : Heap} {M : List Ptr} (hr : IsRing h M) {p : Ptr} (hp : p ∈ M) :
    followNext h M.length p = some p ∧
    (∀ j, 0 < j → j < M.length → followNext h j p ≠ some p) ∧
    ∃ j, walk h M.length p = some (M.rotate j) := by
  obtain ⟨i, hi, rfl⟩ := exists_nth_of_mem M p hp
  have hpos : 0 < M.length := by omega
  refine ⟨?_, ?_, i, ?_⟩
  · rw [followNext_nth hr _ i hi, Nat.add_mod_right, Nat.mod_eq_of_lt hi]
  · intro j hj1 hj2 hcon
    rw [followNext_nth hr _ i hi] at hcon
    have e := nth_inj M hr.1 _ i (Nat.mod_lt _ hpos) hi (Option.some.inj hcon)
    by_cases hlt : i + j < M.length
    · rw [Nat.mod_eq_of_lt hlt] at e; omega
    · have e2 : i + j = (i + j - M.length) + M.length := by omega
      rw [e2, Nat.add_mod_right, Nat.mod_eq_of_lt (by omega)] at e
      omega
  · have hr' := isRing_rotate hr i
    have hl' : (M.rotate i).length = M.length := List.length_rotate M i
    have hw := walk_head M.length (M.rotate i) hr' (by rw [hl']) (by rw [hl']; exact hpos)
    rw [nth_rotate_zero M i hpos, Nat.mod_eq_of_lt hi,
      List.take_of_length_le (by rw [hl'])] at hw
    exact hw

/-- C15: if the live participants form one cycle `L` of `m ≥ 2` participants
under `next`, then `removeNode T` succeeds and the remaining `m - 1`
participants form one cycle whose order is `L` with `T` deleted: from every
remaining participant, `m - 1` steps of `next` return to it, no smaller
positive number of steps does, and the `m - 1` participants met are the
remaining ones, each once, in the order of `L` with `T` deleted. -/
theorem removeNode_keeps_cycle (h : Heap) (L : List Ptr) (T : Ptr) (hr : IsRing h L)
    (h2 : 2 ≤ L.length) (hT : T ∈ L) :
    ∃ s h' v, removeNode h T = some (s, h', v) ∧ IsRing h' (L.erase T) ∧
      (L.erase T).length = L.length - 1 ∧ s ∈ L.erase T ∧
      (∀ p, (h'.cells p).isSome = true ↔ p ∈ L.erase T) ∧
      ∀ p, p ∈ L.erase T →
        followNext h' (L.length - 1) p = some p ∧
        (∀ j, 0 < j → j < L.length - 1 → followNext h' j p ≠ some p) ∧
        ∃ j, walk h' (L.length - 1) p = some ((L.erase T).rotate j) := by
  obtain ⟨s, h', v, e1, -, -, e3, e4⟩ := isRing_removeNode hr hT
  have hlen : (L.erase T).length = L.length - 1 := List.length_erase_of_mem hT
  refine ⟨s, h', v, e1, e3, hlen, e4 h2, isRing_live e3, ?_⟩
  intro p hp
  have := isRing_cycle e3 hp
  rw [hlen] at this
  exact this

/-- C15, on the ring of four participants built at address 0, removing
participant 2 (address 1): the remaining cycle is 0, 2, 3. -/
theorem removeNode_keeps_cycle_witness :
    IsRing (ringHeap 0 4) (List.range' 0 4) ∧ 2 ≤ (List.range' 0 4).length ∧
    (1 : Ptr) ∈ List.range' 0 4 ∧ (List.range' 0 4).erase 1 = [0, 2, 3] ∧
    ∃ s h' v, removeNode (ringHeap 0 4) 1 = some (s, h', v) ∧
      IsRing h' ((List.range' 0 4).erase 1) ∧
      ((List.range' 0 4).erase 1).length = (List.range' 0 4).length - 1 ∧
      s ∈ (List.range' 0 4).erase 1 ∧
      (∀ p, (h'.cells p).isSome = true ↔ p ∈ (List.range' 0 4).erase 1) ∧
      ∀ p, p ∈ (List.range' 0 4).erase 1 →
        followNext h' ((List.range' 0 4).length - 1) p = some p ∧
        (∀ j, 0 < j → j < (List.range' 0 4).length - 1 → followNext h' j p ≠ some p) ∧
        ∃ j, walk h' ((List.range' 0 4).length - 1) p
          = some (((List.range' 0 4).erase 1).rotate j) :=
  ⟨isRing_ringHeap 0 4, by decide, by decide, by decide,
    removeNode_keeps_cycle (ringHeap 0 4) (List.range' 0 4) 1 (isRing_ringHeap 0 4) (by decide)
      (by decide)⟩

/-! ## Every round of the driver acts on live participants -/

/-- C11, amended: for every round `k` with `1 ≤ k ≤ n` of the driver for ring
size `n < INT_MAX`,
the run reaches the start of round `k` with `k - 1` identifiers printed and a
well-formed ring `M` of `n - k + 1 ≥ 1` live participants; the start handle
passed to `count` is live, `count` returns a target that is live, and
`removeNode` on it succeeds, frees it, and prints an identifier that no earlier
round printed. -/
theorem driver_rounds_live (n k : Int) (base : Nat) (hk1 : 1 ≤ k) (hkn : k ≤ n)
    (hN : n < INT_MAX) :
    ∃ (first : Ptr) (h : Heap) (out : List Int) (M : List Ptr) (b : Int) (t first' : Ptr)
      (h' : Heap) (v : Int),
      roundStart n base k = some (first, h, out) ∧
      driver n base = driverLoop n (n.toNat + 2 - k.toNat) k first h out ∧
      (out.length : Int) = k - 1 ∧
      IsRing h M ∧ (M.length : Int) = n - k + 1 ∧
      (h.cells first).isSome = true ∧
      boundMachine k = some b ∧ count h first b = some t ∧ (h.cells t).isSome = true ∧
      removeNode h t = some (first', h', v) ∧ h'.cells t = none ∧ v ∉ out := by
  obtain ⟨b, hb, -, hbI⟩ := boundMachine_spec_aux k (by omega)
  have hm : max 1 n.toNat = n.toNat := by omega
  have hc := RingConstruct_eq n base hN
  rw [hm] at hc
  have hl : (List.range' base n.toNat).length = n.toNat := List.length_range' _ _ _
  have hids : ∀ x, x ∈ List.range' base n.toNat →
      getId (ringHeap base n.toNat) x = some (((x - base : Nat) : Int) + 1) := by
    intro (x : Nat) hx
    have hx' : @LE.le Nat _ base x ∧ @LT.lt Nat _ x (base + n.toNat) := List.mem_range'_1.1 hx
    have := getId_ringHeap base n.toNat (x - base) (by omega)
    rwa [Nat.add_sub_cancel' hx'.1] at this
  obtain ⟨first, h, g1, g2, g3, g4⟩ := driverLoop_josephus (k - 1)
    (fun a => (((a - base : Nat) : Int) + 1)) (by omega) (k - 1).toNat (List.range' base n.toNat) k.toNat 1
    base (ringHeap base n.toNat) [] (isRing_ringHeap base n.toNat) (by rw [hl]; omega) (le_refl 1)
    (by omega) (by omega)
    (fun _ => by rw [nth_range' base n.toNat 0 (by omega)]; rfl) hids
  have hperm := josephus_perm (k - 1).toNat 1 (List.range' base n.toNat)
  have hlen1 := josephus_length (k - 1).toNat 1 (List.range' base n.toNat) (le_refl 1)
    (by rw [hl]; omega)
  have hlen2 : (josephus (k - 1).toNat 1 (List.range' base n.toNat)).2.length
      = n.toNat - (k - 1).toNat := by
    have := hperm.length_eq
    rw [List.length_append, hlen1, hl] at this
    omega
  have hnd : ((josephus (k - 1).toNat 1 (List.range' base n.toNat)).1 ++
      (josephus (k - 1).toNat 1 (List.range' base n.toNat)).2).Nodup :=
    hperm.nodup_iff.2 (List.nodup_range' base n.toNat)
  have hsub : ∀ x, x ∈ (josephus (k - 1).toNat 1 (List.range' base n.toNat)).1 ++
      (josephus (k - 1).toNat 1 (List.range' base n.toNat)).2 → x ∈ List.range' base n.toNat :=
    fun x hx => hperm.subset hx
  generalize (josephus (k - 1).toNat 1 (List.range' base n.toNat)).1 = elim at *
  generalize (josephus (k - 1).toNat 1 (List.range' base n.toNat)).2 = rem at *
  rw [List.nil_append] at g1
  have hrs : roundStart n base k = some (first, h,
      elim.map (fun a => (((a - base : Nat) : Int) + 1))) := by
    simp only [roundStart, hc, Option.bind_eq_bind, Option.some_bind]
    exact g1
  have hfac := driver_factors n k base hk1 (by omega) hN _ hrs
  have hpos : 0 < rem.length := by omega
  have hne : rem ≠ [] := by
    intro e; rw [e, List.length_nil] at hpos; exact absurd hpos (Nat.lt_irrefl 0)
  have hfirst := g3 hne
  have hfm : first ∈ rem := by rw [hfirst]; exact nth_mem rem 0 hpos
  have hcount : count h first b = some (nth (rem.rotate (b - 1).toNat) 0) := by
    rw [hfirst]; exact count_ring g2 hpos b hbI
  have htm : nth (rem.rotate (b - 1).toNat) 0 ∈ rem :=
    List.mem_rotate.1 (nth_mem _ 0 (by rw [List.length_rotate]; exact hpos))
  obtain ⟨s, h', v, e1, e2, -, e3, -⟩ := isRing_removeNode g2 htm
  refine ⟨first, h, _, rem, b, _, s, h', v, hrs, hfac, ?_, g2, by omega, (isRing_live g2 _).2 hfm,
    hb, hcount, (isRing_live g2 _).2 htm, e1, ?_, ?_⟩
  · rw [List.length_map, hlen1]; omega
  · exact e3.2.1 _ (fun hmem => ((g2.1.mem_erase_iff).1 hmem).1 rfl)
  · intro hv
    obtain ⟨e, he, hev⟩ := List.mem_map.1 hv
    have hv' := g4 _ htm
    rw [e2] at hv'
    have hv'' := Option.some.inj hv'
    have he1 : (e : Nat) ∈ List.range' base n.toNat := hsub e (List.mem_append_left _ he)
    have ht1 : (nth (rem.rotate (b - 1).toNat) 0 : Nat) ∈ List.range' base n.toNat :=
      hsub _ (List.mem_append_right _ htm)
    have he2 : @LE.le Nat _ base e ∧ @LT.lt Nat _ e (base + n.toNat) := List.mem_range'_1.1 he1
    have ht2 : @LE.le Nat _ base (nth (rem.rotate (b - 1).toNat) 0) ∧
        @LT.lt Nat _ (nth (rem.rotate (b - 1).toNat) 0) (base + n.toNat) :=
      List.mem_range'_1.1 ht1
    have hev' : (((e - base : Nat) : Int) + 1) = v := hev
    have heq : @Eq Nat e (nth (rem.rotate (b - 1).toNat) 0) := by
      rw [hv''] at hev'
      omega
    have hdis := (List.nodup_append.1 hnd).2.2
    exact hdis he (heq ▸ htm)

/-- C11, amended, at ring size 5 allocated from address 0, round 4. -/
theorem driver_rounds_live_witness :
    (1 : Int) ≤ 4 ∧ (4 : Int) ≤ 5 ∧ (5 : Int) < INT_MAX ∧
    ∃ (first : Ptr) (h : Heap) (out : List Int) (M : List Ptr) (b : Int) (t first' : Ptr)
      (h' : Heap) (v : Int),
      roundStart 5 0 4 = some (first, h, out) ∧
      driver 5 0 = driverLoop 5 ((5 : Int).toNat + 2 - (4 : Int).toNat) 4 first h out ∧
      (out.length : Int) = 4 - 1 ∧
      IsRing h M ∧ (M.length : Int) = 5 - 4 + 1 ∧
      (h.cells first).isSome = true ∧
      boundMachine 4 = some b ∧ count h first b = some t ∧ (h.cells t).isSome = true ∧
      removeNode h t = some (first', h', v) ∧ h'.cells t = none ∧ v ∉ out :=
  ⟨by decide, by decide, by decide,
    driver_rounds_live 5 4 0 (by decide) (by decide) (by decide)⟩

/-! ## The elimination step on a handle that is not live -/

theorem eliminationStep_ne_error (h : Heap) (first : Ptr) (bound : Int) (e : StepError) :
    eliminationStep h first bound ≠ some (Except.error e) := by
  simp only [eliminationStep, Option.bind_eq_bind, Option.pure_def]
  cases hc : count h first bound with
  | none => simp
  | some t =>
    cases hr : removeNode h t with
    | none => simp [hr]
    | some r => simp [hr]

theorem eliminationStep_dead (h : Heap) (first : Ptr) (bound : Int)
    (hdead : h.cells first = none) : eliminationStep h first bound = none := by
  have hn : getNext h first = none := by simp [getNext, hdead]
  have hrm : removeNode h first = none := by
    simp [removeNode, hn]
  by_cases hb : 2 ≤ bound
  · have hc : count h first bound = none := by
      simp [count, countLoop, hb, hn]
    simp [eliminationStep, hc]
  · have hc : count h first bound = some first := by
      simp [count, countLoop, hb]
    simp [eliminationStep, hc, hrm]

/-- C14 as stated fails: with no live participant the elimination step does not
signal `RingEmpty`, and with a start handle that is not live (address 7 beside
the ring at addresses 0, 1, 2) it does not signal `InvalidStart`; in both cases
the step dereferences the handle and its behaviour is undefined. -/
theorem eliminationStep_signals_nothing :
    (∀ p, (Heap.init 0).cells p = none) ∧
    eliminationStep (Heap.init 0) 0 3 = none ∧
    eliminationStep (Heap.init 0) 0 3 ≠ some (Except.error StepError.RingEmpty) ∧
    IsRing (ringHeap 0 3) (List.range' 0 3) ∧ (ringHeap 0 3).cells 7 = none ∧
    eliminationStep (ringHeap 0 3) 7 3 = none ∧
    eliminationStep (ringHeap 0 3) 7 3 ≠ some (Except.error StepError.InvalidStart) :=
  ⟨fun _ => rfl, rfl, by rw [show eliminationStep (Heap.init 0) 0 3 = none from rfl]; simp,
    isRing_ringHeap 0 3, rfl, rfl,
    by rw [show eliminationStep (ringHeap 0 3) 7 3 = none from rfl]; simp⟩

/-- C14, amended: the elimination step (`count` followed by `removeNode`) makes
no liveness check and signals neither `RingEmpty` nor `InvalidStart`: invoked
with a start handle that does not reference a live participant (as is every
handle when no live participant exists), it dereferences the handle, so its
behaviour is undefined, and it returns no error. -/
theorem eliminationStep_undefined (h : Heap) (first : Ptr) (bound : Int)
    (hdead : h.cells first = none) :
    eliminationStep h first bound = none ∧
    ∀ e, eliminationStep h first bound ≠ some (Except.error e) :=
  ⟨eliminationStep_dead h first bound hdead, eliminationStep_ne_error h first bound⟩

/-- C14, amended, on the ring of three participants built at address 0 after
participant 2 (address 1) is freed: a step started at the freed handle. -/
theorem eliminationStep_undefined_witness :
    (unlinked (ringHeap 0 3) 1 2 0 ⟨some 3, some 0, some 1⟩ ⟨some 1, some 1, some 2⟩).cells 1
      = none ∧
    eliminationStep
      (unlinked (ringHeap 0 3) 1 2 0 ⟨some 3, some 0, some 1⟩ ⟨some 1, some 1, some 2⟩) 1 5
      = none ∧
    ∀ e, eliminationStep
      (unlinked (ringHeap 0 3) 1 2 0 ⟨some 3, some 0, some 1⟩ ⟨some 1, some 1, some 2⟩) 1 5
      ≠ some (Except.error e) :=
  ⟨rfl, eliminationStep_undefined _ 1 5 rfl⟩

/-! ## Loop counters at `INT_MAX` -/

theorem bind_none_of_forall {α β : Type} {x : Option α} {f : α → Option β}
    (hf : ∀ a, f a = none) : x.bind f = none := by
  cases x with
  | none => rfl
  | some a => exact hf a

/-- With bound `INT_MAX` the loop of `count` yields no result, whatever the
fuel: its test never fails and its counter cannot pass `INT_MAX`. -/
theorem countLoop_max (h : Heap) :
    ∀ (fuel : Nat) (i : Int) (q : Ptr), i ≤ INT_MAX → countLoop h INT_MAX fuel i q = none := by
  intro fuel
  induction fuel with
  | zero => intro i q _; rfl
  | succ f ih =>
    intro i q hi
    simp only [countLoop, if_pos hi, Option.bind_eq_bind]
    refine bind_none_of_forall (fun q' => ?_)
    by_cases hlt : i < INT_MAX
    · rw [intIncr_of_lt hlt, Option.some_bind]
      exact ih (i + 1) q' (by omega)
    · simp only [intIncr, if_neg hlt, Option.none_bind]

theorem count_max (h : Heap) (first : Ptr) : count h first INT_MAX = none :=
  countLoop_max h _ 2 first (by decide)

/-- With `n = INT_MAX` the loop of `RingConstruct` yields no result, whatever
the fuel. -/
theorem constructLoop_max :
    ∀ (fuel : Nat) (i : Int) (p : Ptr) (h : Heap), i ≤ INT_MAX →
      constructLoop INT_MAX fuel i p h = none := by
  intro fuel
  induction fuel with
  | zero => intro i p h _; rfl
  | succ f ih =>
    intro i p h hi
    simp only [constructLoop, if_pos hi, Option.bind_eq_bind]
    refine bind_none_of_forall (fun h1 => ?_)
    refine bind_none_of_forall (fun h2 => ?_)
    refine bind_none_of_forall (fun h3 => ?_)
    refine bind_none_of_forall (fun p' => ?_)
    by_cases hlt : i < INT_MAX
    · rw [intIncr_of_lt hlt, Option.some_bind]
      exact ih (i + 1) p' h3 (by omega)
    · simp only [intIncr, if_neg hlt, Option.none_bind]

theorem RingConstruct_max (h : Heap) : RingConstruct INT_MAX h = none := by
  simp only [RingConstruct, Option.bind_eq_bind]
  refine bind_none_of_forall (fun h1 => ?_)
  rw [constructLoop_max _ 2 _ h1 (by decide)]
  rfl

theorem driver_max (base : Ptr) : driver INT_MAX base = none := by
  simp only [driver, RingConstruct_max, Option.bind_eq_bind, Option.none_bind]

/-- C1 as stated fails at `n = INT_MAX`: the loop `for (i = 2; i <= n; i++)` of
`RingConstruct` cannot exit, so the driver performs no elimination at all. -/
theorem driver_no_result_at_int_max : driver 2147483647 0 = none :=
  driver_max 0

/-- C2 as stated fails at `n = INT_MAX`: `RingConstruct` yields no ring. -/
theorem RingConstruct_no_ring_at_int_max :
    RingConstruct 2147483647 (Heap.init 0) = none :=
  RingConstruct_max (Heap.init 0)

/-- C3 as stated fails at `n = INT_MAX`: `RingConstruct` returns no handle, so
there is no participant 1 to return. -/
theorem RingConstruct_no_head_at_int_max :
    ¬ ∃ head h, RingConstruct 2147483647 (Heap.init 0) = some (head, h) ∧
      getId h head = some 1 := by
  rintro ⟨head, h, he, -⟩
  rw [show RingConstruct 2147483647 (Heap.init 0) = none from RingConstruct_max _] at he
  exact absurd he (by simp)

/-- C8 as stated fails at `n = INT_MAX`: `RingConstruct` returns no ring in
which the invariant could hold. -/
theorem linkInverse_no_ring_at_int_max :
    ¬ ∃ head h0, RingConstruct 2147483647 (Heap.init 0) = some (head, h0) ∧ LinkInverse h0 := by
  rintro ⟨head, h, he, -⟩
  rw [show RingConstruct 2147483647 (Heap.init 0) = none from RingConstruct_max _] at he
  exact absurd he (by simp)

/-- C11 as stated fails at `n = INT_MAX`: round 1 is never reached, because
the ring is never built. -/
theorem roundStart_no_state_at_int_max : roundStart 2147483647 0 1 = none := by
  have e : RingConstruct 2147483647 (Heap.init 0) = none := RingConstruct_max _
  simp only [roundStart, e, Option.bind_eq_bind, Option.none_bind]

/-- C6 as stated fails at `bound = INT_MAX`: on the ring of three participants
built at address 0, `count` from the live participant 1 yields no result,
because `for (int i = 2; i <= bound; i++)` cannot exit. -/
theorem count_no_result_at_int_max :
    IsRing (ringHeap 0 3) (List.range' 0 3) ∧ (0 : Ptr) ∈ List.range' 0 3 ∧
    (0 : Int) < 2147483647 ∧ count (ringHeap 0 3) 0 2147483647 = none :=
  ⟨isRing_ringHeap 0 3, by decide, by decide, count_max (ringHeap 0 3) 0⟩

/-- C9 as stated fails at `bound = INT_MAX`: on the ring of one participant
built at address 0, `count` yields no result, so nothing is eliminated. -/
theorem single_ring_no_result_at_int_max :
    IsRing (ringHeap 0 1) [0] ∧ (0 : Int) < 2147483647 ∧
    count (ringHeap 0 1) 0 2147483647 = none :=
  ⟨isRing_ringHeap 0 1, by decide, count_max (ringHeap 0 1) 0⟩

/-- C17 as stated fails at `bound = INT_MAX`: on the ring of two participants
built at address 0, following `next` `(bound - 1) mod 2 = 0` times from
participant 2 gives participant 2, but `count` yields no result. -/
theorem count_mod_no_result_at_int_max :
    IsRing (ringHeap 0 2) (List.range' 0 2) ∧ (1 : Ptr) ∈ List.range' 0 2 ∧
    followNext (ringHeap 0 2) ((2147483647 - 1) % 2) 1 = some 1 ∧
    count (ringHeap 0 2) 1 2147483647 = none :=
  ⟨isRing_ringHeap 0 2, by decide, by decide, count_max (ringHeap 0 2) 1⟩

end Josephus
